import Mathlib

/-!
# cats3: streaming S3 objects to standard output

A shallow embedding of `cats3.go` and the properties of its producer/consumer
pipeline.

* The S3 client is a pair of functions of the request (`S3`): every call with
  the same request gets the same response.
* The goroutine that enumerates keys is embedded as the list of the effects it
  performs, in program order (`PAct`); `listAllObjects` takes fuel for its
  unbounded `for` loop and ends in `PAct.loop` when the fuel runs out.
* `main` runs the goroutine and the consumer loop over the one-slot channel
  `keys` under an arbitrary schedule (`List Bool`): at every step the
  scheduler names the goroutine it prefers, and the other one runs when the
  preferred one is blocked.
* Log lines carry their arguments only; the time stamp that `log.LstdFlags`
  prepends is not part of the model.
-/

namespace Cats3

/-! ## The program and its environment -/

/-- The constant `VERSION`. -/
def VERSION : String := "0.0.1"

/-- The fields of `s3.ListObjectsV2Input` that the program sets. -/
structure ListObjectsV2Input where
  bucket : String
  pfx : String
  delimiter : Option String
  continuationToken : Option String
deriving DecidableEq, Repr

/-- An entry of `resp.Contents`: `*obj.Key` and `*obj.Size` (an `int64`). -/
structure Object where
  key : String
  size : Int
deriving DecidableEq, Repr

/-- The fields of `s3.ListObjectsV2Output` that the program reads. The pointers
the program dereferences (`IsTruncated`, `Key`, `Size`, `Prefix`) are not nil. -/
structure ListObjectsV2Output where
  contents : List Object
  commonPrefixes : List String
  isTruncated : Bool
  nextContinuationToken : Option String
deriving DecidableEq, Repr

/-- The response of a successful `GetObject`: `data` is the content of the
object, `copyFail` says whether `io.Copy(os.Stdout, resp.Body)` fails, after
how many bytes, and with which error. -/
structure Body where
  data : List UInt8
  copyFail : Option (Nat × String)
deriving DecidableEq, Repr

/-- The bytes that `io.Copy` writes to standard output for a body. -/
def Body.written (b : Body) : List UInt8 :=
  match b.copyFail with
  | none => b.data
  | some (n, _) => b.data.take n

/-- The client `svc`: the two operations the program calls. -/
structure S3 where
  listObjectsV2 : ListObjectsV2Input → Except String ListObjectsV2Output
  getObject : String → String → Except String Body

/-- A line of the two loggers, without its prefix and time stamp. -/
inductive LogLine where
  | info (args : List String)
  | error (msg : String)
deriving DecidableEq, Repr

/-- Whether a line comes from `errorLog`. -/
def LogLine.isError : LogLine → Bool
  | .info _ => false
  | .error _ => true

/-- An effect of the key-enumerating goroutine. -/
inductive PAct where
  /-- the call `svc.ListObjectsV2(params)` -/
  | list (params : ListObjectsV2Input)
  /-- the send `output <- key` on the channel -/
  | send (key : String)
  /-- the call `infoLog.Println(args...)` -/
  | info (args : List String)
  /-- the call `errorLog.Println(err)` -/
  | err (msg : String)
  /-- the `for` loop of `listAllObjects` is still running: out of fuel -/
  | loop
deriving DecidableEq, Repr

/-- The conversion `uint64(*obj.Size)` of an `int64`. -/
def uint64 (n : Int) : Nat := (n % 2 ^ 64).toNat

/-- The effects of one iteration of `for _, obj := range resp.Contents`. -/
def emitObject (humanize : Nat → String) (obj : Object) : List PAct :=
  [.send obj.key, .info ["object", obj.key, humanize (uint64 obj.size)]]

/-- The `for` loop of `listAllObjects`, from the call with `params` on. -/
def listLoop (svc : S3) (humanize : Nat → String) :
    Nat → ListObjectsV2Input → List PAct
  | 0, _ => [.loop]
  | fuel + 1, params =>
    .list params ::
      match svc.listObjectsV2 params with
      | .error err => [.err err]
      | .ok resp =>
        resp.contents.flatMap (emitObject humanize)
          ++ resp.commonPrefixes.map (fun commonPrefix => .info ["prefix", commonPrefix])
          ++ (if resp.isTruncated then
                listLoop svc humanize fuel
                  { params with continuationToken := resp.nextContinuationToken }
              else [])

/-- The parameters of the first listing call for a prefix. -/
def listParams (bucket delimiter pfx : String) : ListObjectsV2Input :=
  { bucket := bucket
    pfx := pfx
    delimiter := if delimiter ≠ "" then some delimiter else none
    continuationToken := none }

/-- The function `listAllObjects`: its effects in program order. -/
def listAllObjects (svc : S3) (humanize : Nat → String) (fuel : Nat)
    (bucket delimiter pfx : String) : List PAct :=
  listLoop svc humanize fuel (listParams bucket delimiter pfx)

/-- The parsed command line. -/
structure Config where
  cmdName : String
  bucket : String
  argsArePrefix : Bool
  delimiter : String
  dryRun : Bool
  quiet : Bool
  showVersion : Bool
  args : List String
deriving DecidableEq, Repr

/-- The body of the goroutine of `main`, before the deferred `close(keys)`. -/
def producer (svc : S3) (humanize : Nat → String) (c : Config) (fuel : Nat) :
    List String → List PAct
  | [] => []
  | arg :: rest =>
    (if c.argsArePrefix then
        listAllObjects svc humanize fuel c.bucket c.delimiter arg
      else
        [.send arg, .info ["object", arg]])
      ++ producer svc humanize c fuel rest

/-- The program point of `cat`. -/
inductive CatPc where
  /-- before `svc.GetObject(params)` -/
  | call
  /-- before `io.Copy(os.Stdout, resp.Body)` -/
  | copy (resp : Body)
deriving DecidableEq, Repr

/-- The program point of the loop `for key := range keys` of `main`. -/
inductive Cons where
  /-- waiting for the next key -/
  | recv
  /-- inside `cat(svc, bucket, key)` -/
  | cat (key : String) (pc : CatPc)
deriving DecidableEq, Repr

/-- The state of the process: the two goroutines, the channel, the logger
configuration, and what the process has done to the outside so far. -/
structure Sys where
  /-- what the enumerating goroutine still has to do -/
  prod : List PAct
  /-- whether `close(keys)` has run -/
  closed : Bool
  /-- the buffer of `keys`, of capacity 1 -/
  buf : Option String
  /-- the program point of the main goroutine -/
  cons : Cons
  /-- whether `infoLog` writes to `ioutil.Discard` -/
  infoDiscard : Bool
  /-- the bytes written to standard output -/
  stdout : List UInt8
  /-- the lines written to standard error -/
  stderr : List LogLine
  /-- the requests of the `ListObjectsV2` calls, in call order -/
  listCalls : List ListObjectsV2Input
  /-- the bucket and key of the `GetObject` calls, in call order -/
  getCalls : List (String × String)
  /-- the keys sent on the channel -/
  emitted : List String
  /-- the keys received from the channel -/
  consumed : List String
  /-- the exit status, once the process has ended -/
  exit : Option Nat
deriving DecidableEq, Repr

/-- The state at process start. -/
def Sys.init : Sys :=
  { prod := [], closed := false, buf := none, cons := .recv, infoDiscard := false
    stdout := [], stderr := [], listCalls := [], getCalls := [], emitted := []
    consumed := [], exit := none }

/-- The call `errorLog.Fatal(err)`: the line, then `os.Exit(1)`. -/
def fatal (err : String) (s : Sys) : Sys :=
  { s with stderr := s.stderr ++ [.error err], exit := some 1 }

/-- One step of the function `cat` at program point `pc`. -/
def cat (svc : S3) (bucket key : String) (pc : CatPc) (s : Sys) : Sys :=
  match pc with
  | .call =>
    let s := { s with getCalls := s.getCalls ++ [(bucket, key)] }
    match svc.getObject bucket key with
    | .error err => fatal err s
    | .ok resp => { s with cons := .cat key (.copy resp) }
  | .copy resp =>
    let s := { s with stdout := s.stdout ++ resp.written }
    match resp.copyFail with
    | some (_, err) => fatal err s
    | none => { s with cons := .recv }

/-- One step of the enumerating goroutine, `none` when it cannot move: a send
on the full channel blocks, and the goroutine is gone after `close(keys)`. -/
def prodStep (s : Sys) : Option Sys :=
  match s.prod with
  | [] => if s.closed then none else some { s with closed := true }
  | .loop :: _ => none
  | .list params :: rest =>
    some { s with prod := rest, listCalls := s.listCalls ++ [params] }
  | .send key :: rest =>
    match s.buf with
    | some _ => none
    | none => some { s with prod := rest, buf := some key, emitted := s.emitted ++ [key] }
  | .info args :: rest =>
    some { s with
      prod := rest
      stderr := if s.infoDiscard then s.stderr else s.stderr ++ [.info args] }
  | .err msg :: rest =>
    some { s with prod := rest, stderr := s.stderr ++ [.error msg] }

/-- One step of the main goroutine, `none` when it cannot move: a receive on
the empty open channel blocks. -/
def consStep (svc : S3) (c : Config) (s : Sys) : Option Sys :=
  match s.cons with
  | .recv =>
    match s.buf with
    | some key =>
      let s := { s with buf := none, consumed := s.consumed ++ [key] }
      some (if c.dryRun then s else { s with cons := .cat key .call })
    | none => if s.closed then some { s with exit := some 0 } else none
  | .cat key pc => some (cat svc c.bucket key pc s)

/-- One step of the process: the goroutine the scheduler prefers (`true` for
the enumerating one) moves, or else the other one; nothing moves after exit. -/
def step (svc : S3) (c : Config) (s : Sys) (preferProducer : Bool) : Sys :=
  if s.exit.isSome then s
  else if preferProducer then
    match prodStep s with
    | some t => t
    | none => (consStep svc c s).getD s
  else
    match consStep svc c s with
    | some t => t
    | none => (prodStep s).getD s

/-- The process under a schedule. -/
def run (svc : S3) (c : Config) (sched : List Bool) (s : Sys) : Sys :=
  sched.foldl (step svc c) s

/-- The bytes of a string. -/
def bytes (s : String) : List UInt8 := s.toUTF8.data.toList

/-- The function `main`, from the parsed command line on, under a schedule. -/
def main (svc : S3) (humanize : Nat → String) (c : Config) (fuel : Nat)
    (sched : List Bool) : Sys :=
  if c.showVersion then
    { Sys.init with stdout := bytes (c.cmdName ++ " " ++ VERSION ++ "\n"), exit := some 0 }
  else if c.bucket = "" then
    fatal "bucket name required" Sys.init
  else
    run svc c sched
      { Sys.init with
        infoDiscard := c.quiet
        prod := producer svc humanize c fuel c.args }

/-! ## What the effects of the goroutine and of `cat` amount to -/

/-- The keys an effect list sends on the channel. -/
def pKeys : List PAct → List String
  | [] => []
  | .send key :: rest => key :: pKeys rest
  | _ :: rest => pKeys rest

/-- The listing requests an effect list makes. -/
def pCalls : List PAct → List ListObjectsV2Input
  | [] => []
  | .list params :: rest => params :: pCalls rest
  | _ :: rest => pCalls rest

/-- The lines an effect list writes to standard error, given whether `infoLog`
is discarded. -/
def pLog (discard : Bool) : List PAct → List LogLine
  | [] => []
  | .info args :: rest => if discard then pLog discard rest else .info args :: pLog discard rest
  | .err msg :: rest => .error msg :: pLog discard rest
  | _ :: rest => pLog discard rest

/-- The error with which `cat` ends the process for a key, if it does: the
error of `GetObject`, or else the error of the copy. -/
def catErr (svc : S3) (bucket key : String) : Option String :=
  match svc.getObject bucket key with
  | .error err => some err
  | .ok resp => resp.copyFail.map (fun p => p.2)

/-- The bytes `cat` writes to standard output for a key. -/
def catOut (svc : S3) (bucket key : String) : List UInt8 :=
  match svc.getObject bucket key with
  | .error _ => []
  | .ok resp => resp.written

/-- The `GetObject` calls of the consumer loop over keys that it has dealt with. -/
def gets (c : Config) (keys : List String) : List (String × String) :=
  if c.dryRun then [] else keys.map (fun key => (c.bucket, key))

/-- The output of the consumer loop over keys that it has dealt with. -/
def outs (svc : S3) (c : Config) (keys : List String) : List UInt8 :=
  if c.dryRun then [] else keys.flatMap (catOut svc c.bucket)

/-- The content of the object stored under a key: the body that `GetObject`
returns for it (empty when the call fails). -/
def objectData (svc : S3) (bucket key : String) : List UInt8 :=
  match svc.getObject bucket key with
  | .error _ => []
  | .ok resp => resp.data

/-- The number of steps within which the process ends when the enumeration
is finite: every effect of the goroutine, `close`, three steps of the main
goroutine per key, and the last receive. -/
def bound (P : List PAct) : Nat := P.length + 3 * (pKeys P).length + 2

/-- The keys of the matched objects of a page, in page order. -/
def pageKeys (page : ListObjectsV2Output) : List String :=
  page.contents.map (fun obj => obj.key)

/-- The informational lines for a page: one `object` line per matched object,
then one `prefix` line per common prefix. -/
def pageLines (humanize : Nat → String) (page : ListObjectsV2Output) : List LogLine :=
  page.contents.map (fun obj => .info ["object", obj.key, humanize (uint64 obj.size)])
    ++ page.commonPrefixes.map (fun commonPrefix => .info ["prefix", commonPrefix])

/-- The pages that the loop of `listAllObjects` walks from a request on: the
listing is called again, with the continuation token of the page just read, as
long as the page is truncated, and the walk ends at a failing call. The result
is the pages in call order and the error of the failing call, if one failed; it
is `none` when `fuel` calls do not get that far. -/
def pagesOf (svc : S3) : Nat → ListObjectsV2Input →
    Option (List ListObjectsV2Output × Option String)
  | 0, _ => none
  | fuel + 1, req =>
    match svc.listObjectsV2 req with
    | .error err => some ([], some err)
    | .ok page =>
      if page.isTruncated then
        (pagesOf svc fuel { req with continuationToken := page.nextContinuationToken }).map
          (fun r => (page :: r.1, r.2))
      else some ([page], none)

/-- The pages of a prefix in the words of the specification: the listing
operation is called repeatedly, each call carrying the continuation token of the
previous page, until a page with no continuation token is returned. It is `none`
when a call fails or `fuel` calls do not get that far. -/
def pagesUntilNoToken (svc : S3) : Nat → ListObjectsV2Input →
    Option (List ListObjectsV2Output)
  | 0, _ => none
  | fuel + 1, req =>
    match svc.listObjectsV2 req with
    | .error _ => none
    | .ok page =>
      match page.nextContinuationToken with
      | none => some [page]
      | some token =>
        (pagesUntilNoToken svc fuel { req with continuationToken := some token }).map
          (fun rest => page :: rest)

/-! ## The invariant of the pipeline, and the measure of its termination -/

/-- What the main goroutine has done, by program point: `tail` is what it has
written to standard error. -/
def ConsInv (svc : S3) (c : Config) (exit : Option Nat) (consumed : List String)
    (getCalls : List (String × String)) (stdout : List UInt8) (tail : List LogLine) :
    Cons → Prop
  | .recv =>
    (exit = none ∨ exit = some 0) ∧ tail = [] ∧
      (c.dryRun = false → ∀ x ∈ consumed, catErr svc c.bucket x = none) ∧
      getCalls = gets c consumed ∧ stdout = outs svc c consumed
  | .cat key .call =>
    c.dryRun = false ∧ ∃ r, consumed = r ++ [key] ∧
      (∀ x ∈ r, catErr svc c.bucket x = none) ∧
      stdout = r.flatMap (catOut svc c.bucket) ∧
      ((exit = none ∧ tail = [] ∧ getCalls = r.map (fun x => (c.bucket, x))) ∨
        (exit = some 1 ∧ ∃ m, svc.getObject c.bucket key = .error m ∧ tail = [.error m] ∧
          getCalls = (r ++ [key]).map (fun x => (c.bucket, x))))
  | .cat key (.copy resp) =>
    c.dryRun = false ∧ ∃ r, consumed = r ++ [key] ∧
      (∀ x ∈ r, catErr svc c.bucket x = none) ∧
      svc.getObject c.bucket key = .ok resp ∧
      getCalls = (r ++ [key]).map (fun x => (c.bucket, x)) ∧
      ((exit = none ∧ tail = [] ∧ stdout = r.flatMap (catOut svc c.bucket)) ∨
        (exit = some 1 ∧ ∃ n m, resp.copyFail = some (n, m) ∧ tail = [.error m] ∧
          stdout = r.flatMap (catOut svc c.bucket) ++ resp.written))

/-- The invariant of the process that runs the effect list `P`: `done` is what
the enumerating goroutine has done, `tail` what the main goroutine has logged. -/
def Inv (svc : S3) (c : Config) (P : List PAct) (s : Sys) : Prop :=
  ∃ done tail,
    done ++ s.prod = P ∧
    s.emitted = pKeys done ∧
    s.listCalls = pCalls done ∧
    s.stderr = pLog s.infoDiscard done ++ tail ∧
    s.emitted = s.consumed ++ s.buf.toList ∧
    (s.exit = some 0 → s.prod = [] ∧ s.buf = none) ∧
    ConsInv svc c s.exit s.consumed s.getCalls s.stdout tail s.cons ∧
    (s.closed = true → s.prod = [])

/-- The number of steps the process can still make. -/
def workLeft (s : Sys) : Nat :=
  s.prod.length + 3 * (pKeys s.prod).length + (if s.closed then 0 else 1)
    + (if s.buf.isSome then 3 else 0)
    + (match s.cons with
        | .recv => 0
        | .cat _ .call => 2
        | .cat _ (.copy _) => 1)
    + 1

/-- The state of the quiet run that corresponds to a state of the run without
`-quiet`: the informational lines are gone and `infoLog` is discarded. -/
def mute (s : Sys) : Sys :=
  { s with stderr := s.stderr.filter LogLine.isError, infoDiscard := true }

/-! ## Concrete backends and command lines -/

/-- A backend: listing `a/` is denied, `logs/` has two pages, every other
prefix matches nothing; the object `missing` does not exist, the copy of
`torn` breaks after two bytes, and every other object holds its own key. -/
def exSvc : S3 :=
  { listObjectsV2 := fun req =>
      if req.pfx = "a/" then .error "AccessDenied"
      else if req.pfx = "logs/" then
        match req.continuationToken with
        | none =>
          .ok { contents := [{ key := "logs/1.log", size := 2048 }]
                commonPrefixes := ["logs/old/"]
                isTruncated := true
                nextContinuationToken := some "X" }
        | some _ =>
          .ok { contents := [{ key := "logs/2.log", size := 7 }]
                commonPrefixes := []
                isTruncated := false
                nextContinuationToken := none }
      else
        .ok { contents := [], commonPrefixes := [], isTruncated := false
              nextContinuationToken := none }
    getObject := fun _ key =>
      if key = "missing" then .error "NoSuchKey"
      else if key = "torn" then .ok { data := [1, 2, 3], copyFail := some (2, "broken pipe") }
      else .ok { data := bytes key, copyFail := none } }

/-- A stand-in for `humanize.Bytes`. -/
def exHumanize (n : Nat) : String := if n < 1000 then "small" else "large"

/-- The page plan of `exSvc`: the pages of each prefix and the error that ends
them, if any. -/
def exPages (a : String) : List ListObjectsV2Output × Option String :=
  if a = "a/" then ([], some "AccessDenied")
  else if a = "logs/" then
    ([{ contents := [{ key := "logs/1.log", size := 2048 }]
        commonPrefixes := ["logs/old/"]
        isTruncated := true
        nextContinuationToken := some "X" },
      { contents := [{ key := "logs/2.log", size := 7 }]
        commonPrefixes := []
        isTruncated := false
        nextContinuationToken := none }], none)
  else
    ([{ contents := [], commonPrefixes := [], isTruncated := false
        nextContinuationToken := none }], none)

/-- The command line `cats3 -bucket b a.txt b.txt`. -/
def exLiteral : Config :=
  { cmdName := "cats3", bucket := "b", argsArePrefix := false, delimiter := "/"
    dryRun := false, quiet := false, showVersion := false, args := ["a.txt", "b.txt"] }

/-- The command line `cats3 -bucket b a.txt torn b.txt`. -/
def exTorn : Config := { exLiteral with args := ["a.txt", "torn", "b.txt"] }

/-- The command line `cats3 -bucket b -prefix a/ logs/`. -/
def exPrefixes : Config := { exLiteral with argsArePrefix := true, args := ["a/", "logs/"] }

/-- The command line `cats3 -bucket b -prefix -dry-run a/ logs/`. -/
def exDry : Config := { exPrefixes with dryRun := true }

/-- The command line `cats3 -version -prefix logs/`, without a bucket. -/
def exVersion : Config :=
  { exPrefixes with bucket := "", showVersion := true, args := ["logs/"] }

/-- The command line `cats3 a.txt`, without a bucket. -/
def exNoBucket : Config := { exLiteral with bucket := "", args := ["a.txt"] }

/-- A schedule of forty steps that prefers the enumerating goroutine. -/
def exSched : List Bool := List.replicate 40 true

/-- A schedule of forty steps that prefers the main goroutine. -/
def exSched' : List Bool := List.replicate 40 false

/-- A backend whose first page carries a continuation token although it is not
truncated. -/
def exLoose : S3 :=
  { listObjectsV2 := fun req =>
      match req.continuationToken with
      | none =>
        .ok { contents := [{ key := "x/1", size := 1 }], commonPrefixes := []
              isTruncated := false, nextContinuationToken := some "T" }
      | some _ =>
        .ok { contents := [{ key := "x/2", size := 1 }], commonPrefixes := []
              isTruncated := false, nextContinuationToken := none }
    getObject := fun _ key => .ok { data := bytes key, copyFail := none } }

/-- The command line `cats3 -bucket b -prefix -dry-run x/`. -/
def exLooseCfg : Config := { exDry with args := ["x/"] }

/-- The command line `cats3 -version -bucket b a.txt b.txt`. -/
def exVersionLiteral : Config := { exLiteral with showVersion := true }

/-- The command line `cats3 -version -bucket b -prefix -dry-run a/ logs/`. -/
def exVersionDry : Config := { exDry with showVersion := true }

/-! ## The invariant is kept by every step -/

theorem pKeys_append (xs ys : List PAct) : pKeys (xs ++ ys) = pKeys xs ++ pKeys ys := by
  induction xs with
  | nil => rfl
  | cons a xs ih => cases a <;> simp [pKeys, ih]

theorem pCalls_append (xs ys : List PAct) : pCalls (xs ++ ys) = pCalls xs ++ pCalls ys := by
  induction xs with
  | nil => rfl
  | cons a xs ih => cases a <;> simp [pCalls, ih]

theorem pLog_append (d : Bool) (xs ys : List PAct) :
    pLog d (xs ++ ys) = pLog d xs ++ pLog d ys := by
  induction xs with
  | nil => rfl
  | cons a xs ih => cases a <;> cases d <;> simp [pLog, ih]

theorem consInv_tail_nil {svc : S3} {c : Config} {consumed : List String}
    {getCalls : List (String × String)} {stdout : List UInt8} {tail : List LogLine}
    {pc : Cons} (h : ConsInv svc c none consumed getCalls stdout tail pc) : tail = [] := by
  cases pc with
  | recv => exact h.2.1
  | cat key q =>
    cases q with
    | call =>
      obtain ⟨-, r, -, -, -, h | h⟩ := h
      · exact h.2.1
      · simp at h
    | copy resp =>
      obtain ⟨-, r, -, -, -, -, h | h⟩ := h
      · exact h.2.1
      · simp at h

theorem inv_init (svc : S3) (c : Config) (P : List PAct) (d : Bool) :
    Inv svc c P { Sys.init with infoDiscard := d, prod := P } := by
  refine ⟨[], [], ?_⟩
  simp [Sys.init, pKeys, pCalls, pLog, ConsInv, gets, outs]

theorem inv_prodStep {svc : S3} {c : Config} {P : List PAct} {s t : Sys}
    (h : Inv svc c P s) (hx : s.exit = none) (ht : prodStep s = some t) : Inv svc c P t := by
  obtain ⟨done, tail, h1, h2, h3, h4, h5, h6, h7, h8⟩ := h
  have htl : tail = [] := by rw [hx] at h7; exact consInv_tail_nil h7
  subst htl
  unfold prodStep at ht
  split at ht
  · split at ht
    · simp at ht
    · simp only [Option.some.injEq] at ht
      subst ht
      rename_i hp _
      exact ⟨done, [], by simpa using h1, h2, h3, h4, h5, by simp [hx], h7, fun _ => hp⟩
  · simp at ht
  · rename_i params rest hp
    simp only [Option.some.injEq] at ht
    subst ht
    refine ⟨done ++ [.list params], [], ?_, ?_, ?_, ?_, h5, by simp [hx], h7, ?_⟩
    · simp [← h1, hp]
    · simp [pKeys_append, pKeys, h2]
    · simp [pCalls_append, pCalls, h3]
    · simp [pLog_append, pLog, h4]
    · intro hcl
      simp [h8 hcl] at hp
  · rename_i key rest hp
    split at ht
    · simp at ht
    · rename_i hb
      simp only [Option.some.injEq] at ht
      subst ht
      refine ⟨done ++ [.send key], [], ?_, ?_, ?_, ?_, ?_, by simp [hx], h7, ?_⟩
      · simp [← h1, hp]
      · simp [pKeys_append, pKeys, h2]
      · simp [pCalls_append, pCalls, h3]
      · simp [pLog_append, pLog, h4]
      · simp [h5, hb]
      · intro hcl
        simp [h8 hcl] at hp
  · rename_i args rest hp
    simp only [Option.some.injEq] at ht
    subst ht
    refine ⟨done ++ [.info args], [], ?_, ?_, ?_, ?_, h5, by simp [hx], h7, ?_⟩
    · simp [← h1, hp]
    · simp [pKeys_append, pKeys, h2]
    · simp [pCalls_append, pCalls, h3]
    · cases hd : s.infoDiscard <;> simp [pLog_append, pLog, h4, hd]
    · intro hcl
      simp [h8 hcl] at hp
  · rename_i msg rest hp
    simp only [Option.some.injEq] at ht
    subst ht
    refine ⟨done ++ [.err msg], [], ?_, ?_, ?_, ?_, h5, by simp [hx], h7, ?_⟩
    · simp [← h1, hp]
    · simp [pKeys_append, pKeys, h2]
    · simp [pCalls_append, pCalls, h3]
    · simp [pLog_append, pLog, h4]
    · intro hcl
      simp [h8 hcl] at hp

theorem catErr_of_ok {svc : S3} {bucket key : String} {resp : Body}
    (h : svc.getObject bucket key = .ok resp) (hc : resp.copyFail = none) :
    catErr svc bucket key = none := by
  simp [catErr, h, hc]

theorem catOut_of_ok {svc : S3} {bucket key : String} {resp : Body}
    (h : svc.getObject bucket key = .ok resp) : catOut svc bucket key = resp.written := by
  simp [catOut, h]

theorem inv_consStep {svc : S3} {c : Config} {P : List PAct} {s t : Sys}
    (h : Inv svc c P s) (hx : s.exit = none) (ht : consStep svc c s = some t) :
    Inv svc c P t := by
  obtain ⟨done, tail, h1, h2, h3, h4, h5, h6, h7, h8⟩ := h
  have htl : tail = [] := by rw [hx] at h7; exact consInv_tail_nil h7
  subst htl
  unfold consStep at ht
  split at ht
  · rename_i hc
    rw [hc] at h7
    obtain ⟨-, -, hok, hg, ho⟩ := h7
    split at ht
    · rename_i key hb
      have h5' : s.emitted = (s.consumed ++ [key]) ++ (none : Option String).toList := by
        simp [h5, hb]
      cases hd : c.dryRun
      · simp only [hd, Bool.false_eq_true, if_false, Option.some.injEq] at ht
        subst ht
        refine ⟨done, [], h1, h2, h3, h4, h5', ?_, ?_, h8⟩
        · intro h0
          exact absurd (hx.symm.trans h0) (by simp)
        · refine ⟨hd, s.consumed, rfl, hok hd, ?_, Or.inl ⟨hx, rfl, ?_⟩⟩
          · simpa [outs, hd] using ho
          · simpa [gets, hd] using hg
      · simp only [hd, if_true, Option.some.injEq] at ht
        subst ht
        refine ⟨done, [], h1, h2, h3, h4, h5', ?_, ?_, h8⟩
        · intro h0
          exact absurd (hx.symm.trans h0) (by simp)
        · rw [hc]
          refine ⟨Or.inl hx, rfl, by simp [hd], ?_, ?_⟩
          · simpa [gets, hd] using hg
          · simpa [outs, hd] using ho
    · rename_i hb
      split at ht
      · rename_i hcl
        simp only [Option.some.injEq] at ht
        subst ht
        refine ⟨done, [], h1, h2, h3, h4, h5, fun _ => ⟨h8 hcl, hb⟩, ?_, h8⟩
        rw [hc]
        exact ⟨Or.inr rfl, rfl, hok, hg, ho⟩
      · simp at ht
  · rename_i key pc hc
    rw [hc] at h7
    simp only [Option.some.injEq] at ht
    subst ht
    cases pc with
    | call =>
      obtain ⟨hd, r, hr, hok, ho, hg | hg⟩ := h7
      · obtain ⟨-, -, hg⟩ := hg
        cases hget : svc.getObject c.bucket key with
        | error m =>
          have e : cat svc c.bucket key .call s
              = fatal m { s with getCalls := s.getCalls ++ [(c.bucket, key)] } := by
            simp [cat, hget]
          rw [e]
          refine ⟨done, [.error m], h1, h2, h3, ?_, h5, ?_, ?_, h8⟩
          · simp [fatal, h4]
          · intro h0
            simp [fatal] at h0
          · rw [show (fatal m { s with getCalls := s.getCalls ++ [(c.bucket, key)] }).cons
                = .cat key .call from hc]
            exact ⟨hd, r, hr, hok, ho, Or.inr ⟨rfl, m, hget, rfl, by simp [fatal, hg]⟩⟩
        | ok resp =>
          have e : cat svc c.bucket key .call s
              = { s with getCalls := s.getCalls ++ [(c.bucket, key)]
                         cons := .cat key (.copy resp) } := by
            simp [cat, hget]
          rw [e]
          refine ⟨done, [], h1, h2, h3, h4, h5, ?_, ?_, h8⟩
          · intro h0
            exact absurd (hx.symm.trans h0) (by simp)
          · exact ⟨hd, r, hr, hok, hget, by simp [hg], Or.inl ⟨hx, rfl, ho⟩⟩
      · rw [hx] at hg
        simp at hg
    | copy resp =>
      obtain ⟨hd, r, hr, hok, hget, hg, ho | ho⟩ := h7
      · obtain ⟨-, -, ho⟩ := ho
        cases hcf : resp.copyFail with
        | none =>
          have e : cat svc c.bucket key (.copy resp) s
              = { s with stdout := s.stdout ++ resp.written, cons := .recv } := by
            simp [cat, hcf]
          rw [e]
          refine ⟨done, [], h1, h2, h3, h4, h5, ?_, ?_, h8⟩
          · intro h0
            exact absurd (hx.symm.trans h0) (by simp)
          · refine ⟨Or.inl hx, rfl, ?_, ?_, ?_⟩
            · intro _ x hxm
              rw [hr] at hxm
              rcases List.mem_append.1 hxm with hxm | hxm
              · exact hok x hxm
              · rw [List.mem_singleton.1 hxm]
                exact catErr_of_ok hget hcf
            · simp [gets, hd, hg, hr]
            · simp [outs, hd, ho, hr, catOut_of_ok hget]
        | some nm =>
          obtain ⟨n, m⟩ := nm
          have e : cat svc c.bucket key (.copy resp) s
              = fatal m { s with stdout := s.stdout ++ resp.written } := by
            simp [cat, hcf]
          rw [e]
          refine ⟨done, [.error m], h1, h2, h3, ?_, h5, ?_, ?_, h8⟩
          · simp [fatal, h4]
          · intro h0
            simp [fatal] at h0
          · rw [show (fatal m { s with stdout := s.stdout ++ resp.written }).cons
                = .cat key (.copy resp) from hc]
            exact ⟨hd, r, hr, hok, hget, hg, Or.inr ⟨rfl, n, m, hcf, rfl, by simp [fatal, ho]⟩⟩
      · rw [hx] at ho
        simp at ho

theorem inv_step {svc : S3} {c : Config} {P : List PAct} {s : Sys}
    (h : Inv svc c P s) (b : Bool) : Inv svc c P (step svc c s b) := by
  unfold step
  cases hx : s.exit with
  | some n => simpa using h
  | none =>
    simp only [Option.isSome_none, Bool.false_eq_true, if_false]
    cases b
    · simp only [Bool.false_eq_true, if_false]
      cases hc : consStep svc c s with
      | some t => exact inv_consStep h hx hc
      | none =>
        cases hp : prodStep s with
        | some t => exact inv_prodStep h hx hp
        | none => simpa using h
    · simp only [if_true]
      cases hp : prodStep s with
      | some t => exact inv_prodStep h hx hp
      | none =>
        cases hc : consStep svc c s with
        | some t => exact inv_consStep h hx hc
        | none => simpa using h

theorem inv_run {svc : S3} {c : Config} {P : List PAct} (sched : List Bool) :
    ∀ {s : Sys}, Inv svc c P s → Inv svc c P (run svc c sched s) := by
  induction sched with
  | nil => intro s h; exact h
  | cons b rest ih => intro s h; exact ih (inv_step h b)

theorem step_of_exit {svc : S3} {c : Config} {s : Sys} (b : Bool) (h : s.exit ≠ none) :
    step svc c s b = s := by
  unfold step
  cases hx : s.exit with
  | none => exact absurd hx h
  | some n => simp

theorem run_of_exit {svc : S3} {c : Config} (sched : List Bool) :
    ∀ {s : Sys}, s.exit ≠ none → run svc c sched s = s := by
  induction sched with
  | nil => intro s _; rfl
  | cons b rest ih =>
    intro s h
    show run svc c rest (step svc c s b) = s
    rw [step_of_exit b h]
    exact ih h

theorem run_append (svc : S3) (c : Config) (xs ys : List Bool) (s : Sys) :
    run svc c (xs ++ ys) s = run svc c ys (run svc c xs s) := by
  simp [run, List.foldl_append]

/-! ## Termination -/

theorem prodStep_workLeft {s t : Sys} (ht : prodStep s = some t) :
    t.exit = s.exit ∧ workLeft t < workLeft s ∧ (PAct.loop ∉ s.prod → PAct.loop ∉ t.prod) := by
  unfold prodStep at ht
  split at ht
  · rename_i hp
    split at ht
    · simp at ht
    · rename_i hcl
      simp only [Option.some.injEq] at ht
      subst ht
      simp [workLeft, hp, hcl]
  · simp at ht
  · rename_i params rest hp
    simp only [Option.some.injEq] at ht
    subst ht
    simp [workLeft, hp, pKeys]
  · rename_i key rest hp
    split at ht
    · simp at ht
    · rename_i hb
      simp only [Option.some.injEq] at ht
      subst ht
      simp [workLeft, hp, pKeys, hb]
      omega
  · rename_i args rest hp
    simp only [Option.some.injEq] at ht
    subst ht
    simp [workLeft, hp, pKeys]
  · rename_i msg rest hp
    simp only [Option.some.injEq] at ht
    subst ht
    simp [workLeft, hp, pKeys]

theorem consStep_workLeft {svc : S3} {c : Config} {s t : Sys}
    (ht : consStep svc c s = some t) :
    t.exit ≠ none ∨ (workLeft t < workLeft s ∧ t.prod = s.prod) := by
  unfold consStep at ht
  split at ht
  · rename_i hc
    split at ht
    · rename_i key hb
      simp only [Option.some.injEq] at ht
      subst ht
      right
      cases c.dryRun <;> simp [workLeft, hc, hb]
    · split at ht
      · simp only [Option.some.injEq] at ht
        subst ht
        left
        simp
      · simp at ht
  · rename_i key pc hc
    simp only [Option.some.injEq] at ht
    subst ht
    cases pc with
    | call =>
      cases hget : svc.getObject c.bucket key with
      | error m => left; simp [cat, hget, fatal]
      | ok resp => right; simp [cat, hget, workLeft, hc]
    | copy resp =>
      cases hcf : resp.copyFail with
      | none => right; simp [cat, hcf, workLeft, hc]
      | some nm => left; simp [cat, hcf, fatal]

theorem enabled {svc : S3} {c : Config} {s : Sys} (hl : PAct.loop ∉ s.prod)
    (hp : prodStep s = none) : consStep svc c s ≠ none := by
  unfold prodStep at hp
  unfold consStep
  split at hp
  · split at hp
    · rename_i hcl
      cases hc : s.cons <;> cases hb : s.buf <;> simp [hcl]
    · simp at hp
  · rename_i rest hpr
    simp [hpr] at hl
  · simp at hp
  · split at hp
    · rename_i key hb
      cases hc : s.cons <;> simp [hb]
    · simp at hp
  · simp at hp
  · simp at hp

theorem step_progress {svc : S3} {c : Config} {s : Sys} (b : Bool) (hx : s.exit = none)
    (hl : PAct.loop ∉ s.prod) :
    (step svc c s b).exit ≠ none ∨
      (workLeft (step svc c s b) < workLeft s ∧ PAct.loop ∉ (step svc c s b).prod) := by
  have hprod : ∀ t, prodStep s = some t → t.exit ≠ none ∨ (workLeft t < workLeft s ∧
      PAct.loop ∉ t.prod) := fun t ht =>
    Or.inr ⟨(prodStep_workLeft ht).2.1, (prodStep_workLeft ht).2.2 hl⟩
  have hcons : ∀ t, consStep svc c s = some t → t.exit ≠ none ∨ (workLeft t < workLeft s ∧
      PAct.loop ∉ t.prod) := fun t ht => by
    rcases consStep_workLeft ht with h | h
    · exact Or.inl h
    · exact Or.inr ⟨h.1, by rw [h.2]; exact hl⟩
  unfold step
  simp only [hx, Option.isSome_none, Bool.false_eq_true, if_false]
  cases b
  · simp only [Bool.false_eq_true, if_false]
    cases hc : consStep svc c s with
    | some t => exact hcons t hc
    | none =>
      cases hp : prodStep s with
      | some t => exact hprod t hp
      | none => exact absurd hc (enabled hl hp)
  · simp only [if_true]
    cases hp : prodStep s with
    | some t => exact hprod t hp
    | none =>
      cases hc : consStep svc c s with
      | some t => exact hcons t hc
      | none => exact absurd hc (enabled hl hp)

theorem run_terminates {svc : S3} {c : Config} (sched : List Bool) :
    ∀ {s : Sys}, PAct.loop ∉ s.prod → workLeft s ≤ sched.length →
      (run svc c sched s).exit ≠ none := by
  induction sched with
  | nil =>
    intro s _ hw
    simp [workLeft] at hw
  | cons b rest ih =>
    intro s hl hw
    show (run svc c rest (step svc c s b)).exit ≠ none
    cases hx : s.exit with
    | some n =>
      have hne : s.exit ≠ none := by simp [hx]
      rw [step_of_exit b hne, run_of_exit rest hne]
      exact hne
    | none =>
      rcases @step_progress svc c s b hx hl with h | ⟨h1, h2⟩
      · rw [run_of_exit rest h]
        exact h
      · exact ih h2 (by simp only [List.length_cons] at hw; omega)

/-! ## What the invariant says at the end of the process -/

theorem inv_exit_cases {svc : S3} {c : Config} {P : List PAct} {s : Sys}
    (h : Inv svc c P s) : s.exit = none ∨ s.exit = some 0 ∨ s.exit = some 1 := by
  obtain ⟨done, tail, -, -, -, -, -, -, h7, -⟩ := h
  cases hc : s.cons with
  | recv =>
    rw [hc] at h7
    rcases h7.1 with h | h
    · exact Or.inl h
    · exact Or.inr (Or.inl h)
  | cat key pc =>
    rw [hc] at h7
    cases pc with
    | call =>
      obtain ⟨-, r, -, -, -, h | h⟩ := h7
      · exact Or.inl h.1
      · exact Or.inr (Or.inr h.1)
    | copy resp =>
      obtain ⟨-, r, -, -, -, -, h | h⟩ := h7
      · exact Or.inl h.1
      · exact Or.inr (Or.inr h.1)

theorem inv_exit_zero {svc : S3} {c : Config} {P : List PAct} {s : Sys}
    (h : Inv svc c P s) (hx : s.exit = some 0) :
    s.emitted = pKeys P ∧ s.consumed = pKeys P ∧ s.listCalls = pCalls P ∧
      s.stderr = pLog s.infoDiscard P ∧ s.getCalls = gets c (pKeys P) ∧
      s.stdout = outs svc c (pKeys P) ∧
      (c.dryRun = false → ∀ x ∈ pKeys P, catErr svc c.bucket x = none) := by
  obtain ⟨done, tail, h1, h2, h3, h4, h5, h6, h7, -⟩ := h
  obtain ⟨hp, hb⟩ := h6 hx
  have hd : done = P := by simpa [hp] using h1
  subst hd
  have hcons : s.consumed = pKeys done := by simpa [hb, h2] using h5.symm
  cases hc : s.cons with
  | recv =>
    rw [hc] at h7
    obtain ⟨-, ht, hok, hg, ho⟩ := h7
    subst ht
    rw [hcons] at hok hg ho
    exact ⟨h2, hcons, h3, by simpa using h4, hg, ho, hok⟩
  | cat key pc =>
    rw [hc, hx] at h7
    cases pc with
    | call =>
      obtain ⟨-, r, -, -, -, h | h⟩ := h7 <;> simp at h
    | copy resp =>
      obtain ⟨-, r, -, -, -, -, h | h⟩ := h7 <;> simp at h

theorem inv_exit_one {svc : S3} {c : Config} {P : List PAct} {s : Sys}
    (h : Inv svc c P s) (hx : s.exit = some 1) :
    c.dryRun = false ∧ ∃ done r key m,
      done <+: P ∧ r ++ [key] <+: pKeys P ∧
      (∀ x ∈ r, catErr svc c.bucket x = none) ∧ catErr svc c.bucket key = some m ∧
      s.consumed = r ++ [key] ∧
      s.getCalls = (r ++ [key]).map (fun x => (c.bucket, x)) ∧
      s.stdout = r.flatMap (catOut svc c.bucket) ++ catOut svc c.bucket key ∧
      s.stderr = pLog s.infoDiscard done ++ [.error m] ∧
      s.listCalls = pCalls done ∧ s.emitted = pKeys done := by
  obtain ⟨done, tail, h1, h2, h3, h4, h5, h6, h7, -⟩ := h
  have hpre : done <+: P := ⟨s.prod, h1⟩
  have hkeys : ∀ r key, s.consumed = r ++ [key] → r ++ [key] <+: pKeys P := by
    intro r key hr
    refine ⟨s.buf.toList ++ pKeys s.prod, ?_⟩
    rw [← h1, pKeys_append, ← h2, h5, hr]
    simp
  cases hc : s.cons with
  | recv =>
    rw [hc, hx] at h7
    rcases h7.1 with h | h <;> simp at h
  | cat key pc =>
    rw [hc, hx] at h7
    cases pc with
    | call =>
      obtain ⟨hd, r, hr, hok, ho, h | ⟨-, m, hget, ht, hg⟩⟩ := h7
      · simp at h
      · subst ht
        refine ⟨hd, done, r, key, m, hpre, hkeys r key hr, hok, by simp [catErr, hget], hr, hg,
          by simp [catOut, hget, ho], h4, h3, h2⟩
    | copy resp =>
      obtain ⟨hd, r, hr, hok, hget, hg, h | ⟨-, n, m, hcf, ht, ho⟩⟩ := h7
      · simp at h
      · subst ht
        refine ⟨hd, done, r, key, m, hpre, hkeys r key hr, hok, by simp [catErr, hget, hcf], hr, hg,
          by simp [catOut, hget, ho], h4, h3, h2⟩

theorem inv_prefixes {svc : S3} {c : Config} {P : List PAct} {s : Sys}
    (h : Inv svc c P s) :
    s.emitted <+: pKeys P ∧ s.listCalls <+: pCalls P ∧ s.consumed <+: s.emitted := by
  obtain ⟨done, tail, h1, h2, h3, h4, h5, h6, h7, -⟩ := h
  refine ⟨⟨pKeys s.prod, ?_⟩, ⟨pCalls s.prod, ?_⟩, ⟨s.buf.toList, h5.symm⟩⟩
  · rw [← h1, pKeys_append, h2]
  · rw [← h1, pCalls_append, h3]

theorem inv_dryRun {svc : S3} {c : Config} {P : List PAct} {s : Sys}
    (h : Inv svc c P s) (hd : c.dryRun = true) : s.getCalls = [] ∧ s.stdout = [] := by
  obtain ⟨done, tail, -, -, -, -, -, -, h7, -⟩ := h
  cases hc : s.cons with
  | recv =>
    rw [hc] at h7
    obtain ⟨-, -, -, hg, ho⟩ := h7
    simp [hg, ho, gets, outs, hd]
  | cat key pc =>
    rw [hc] at h7
    cases pc with
    | call => exact absurd (hd.symm.trans h7.1) (by simp)
    | copy resp => exact absurd (hd.symm.trans h7.1) (by simp)

/-! ## The process started by `main` -/

theorem prodStep_infoDiscard {s t : Sys} (ht : prodStep s = some t) :
    t.infoDiscard = s.infoDiscard := by
  unfold prodStep at ht
  split at ht
  · split at ht
    · simp at ht
    · simp only [Option.some.injEq] at ht
      subst ht
      rfl
  · simp at ht
  · simp only [Option.some.injEq] at ht
    subst ht
    rfl
  · split at ht
    · simp at ht
    · simp only [Option.some.injEq] at ht
      subst ht
      rfl
  · simp only [Option.some.injEq] at ht
    subst ht
    rfl
  · simp only [Option.some.injEq] at ht
    subst ht
    rfl

theorem consStep_infoDiscard {svc : S3} {c : Config} {s t : Sys}
    (ht : consStep svc c s = some t) : t.infoDiscard = s.infoDiscard := by
  unfold consStep at ht
  split at ht
  · split at ht
    · simp only [Option.some.injEq] at ht
      subst ht
      cases c.dryRun <;> rfl
    · split at ht
      · simp only [Option.some.injEq] at ht
        subst ht
        rfl
      · simp at ht
  · rename_i key pc hc
    simp only [Option.some.injEq] at ht
    subst ht
    cases pc with
    | call => cases hget : svc.getObject c.bucket key <;> simp [cat, hget, fatal]
    | copy resp => cases hcf : resp.copyFail <;> simp [cat, hcf, fatal]

theorem step_infoDiscard {svc : S3} {c : Config} (s : Sys) (b : Bool) :
    (step svc c s b).infoDiscard = s.infoDiscard := by
  unfold step
  split
  · rfl
  · cases b
    · simp only [Bool.false_eq_true, if_false]
      cases hc : consStep svc c s with
      | some t => exact consStep_infoDiscard hc
      | none =>
        cases hp : prodStep s with
        | some t => exact prodStep_infoDiscard hp
        | none => rfl
    · simp only [if_true]
      cases hp : prodStep s with
      | some t => exact prodStep_infoDiscard hp
      | none =>
        cases hc : consStep svc c s with
        | some t => exact consStep_infoDiscard hc
        | none => rfl

theorem run_infoDiscard {svc : S3} {c : Config} (sched : List Bool) :
    ∀ s : Sys, (run svc c sched s).infoDiscard = s.infoDiscard := by
  induction sched with
  | nil => intro s; rfl
  | cons b rest ih =>
    intro s
    show (run svc c rest (step svc c s b)).infoDiscard = s.infoDiscard
    rw [ih, step_infoDiscard]

theorem main_eq_run (svc : S3) (humanize : Nat → String) (c : Config) (fuel : Nat)
    (sched : List Bool) (hv : c.showVersion = false) (hb : c.bucket ≠ "") :
    main svc humanize c fuel sched =
      run svc c sched
        { Sys.init with
          infoDiscard := c.quiet
          prod := producer svc humanize c fuel c.args } := by
  simp [main, hv, hb]

theorem main_infoDiscard (svc : S3) (humanize : Nat → String) (c : Config) (fuel : Nat)
    (sched : List Bool) (hv : c.showVersion = false) (hb : c.bucket ≠ "") :
    (main svc humanize c fuel sched).infoDiscard = c.quiet := by
  rw [main_eq_run svc humanize c fuel sched hv hb, run_infoDiscard]

theorem main_inv (svc : S3) (humanize : Nat → String) (c : Config) (fuel : Nat)
    (sched : List Bool) (hv : c.showVersion = false) (hb : c.bucket ≠ "") :
    Inv svc c (producer svc humanize c fuel c.args) (main svc humanize c fuel sched) := by
  rw [main_eq_run svc humanize c fuel sched hv hb]
  exact inv_run sched (inv_init svc c _ c.quiet)

theorem main_terminates (svc : S3) (humanize : Nat → String) (c : Config) (fuel : Nat)
    (sched : List Bool) (hv : c.showVersion = false) (hb : c.bucket ≠ "")
    (hl : PAct.loop ∉ producer svc humanize c fuel c.args)
    (hn : bound (producer svc humanize c fuel c.args) ≤ sched.length) :
    (main svc humanize c fuel sched).exit ≠ none := by
  rw [main_eq_run svc humanize c fuel sched hv hb]
  refine run_terminates sched ?_ ?_
  · exact hl
  · simpa [workLeft, bound, Sys.init] using hn

/-- A complete run: the enumeration is finite and no key makes `cat` fail. -/
theorem main_exit_zero (svc : S3) (humanize : Nat → String) (c : Config) (fuel : Nat)
    (sched : List Bool) (hv : c.showVersion = false) (hb : c.bucket ≠ "")
    (hl : PAct.loop ∉ producer svc humanize c fuel c.args)
    (hok : c.dryRun = false →
      ∀ x ∈ pKeys (producer svc humanize c fuel c.args), catErr svc c.bucket x = none)
    (hn : bound (producer svc humanize c fuel c.args) ≤ sched.length) :
    (main svc humanize c fuel sched).exit = some 0 := by
  have hinv := main_inv svc humanize c fuel sched hv hb
  rcases inv_exit_cases hinv with h | h | h
  · exact absurd h (main_terminates svc humanize c fuel sched hv hb hl hn)
  · exact h
  · obtain ⟨hd, done, r, key, m, -, hpre, -, hm, -⟩ := inv_exit_one hinv h
    have hmem : key ∈ pKeys (producer svc humanize c fuel c.args) :=
      hpre.subset (by simp)
    rw [hok hd key hmem] at hm
    simp at hm

/-- The first failing key of a list of keys is unique. -/
theorem first_failure_unique {α : Type} (ok : α → Prop) :
    ∀ {r pre : List α} {x k : α} {post : List α},
      r ++ [x] <+: pre ++ k :: post → (∀ y ∈ r, ok y) → ¬ ok x →
      (∀ y ∈ pre, ok y) → ¬ ok k → r = pre ∧ x = k := by
  intro r
  induction r with
  | nil =>
    intro pre x k post hp _ hx hpre hk
    cases pre with
    | nil =>
      simp only [List.nil_append, List.singleton_append] at hp
      rw [List.cons_prefix_cons] at hp
      exact ⟨rfl, hp.1⟩
    | cons a pre =>
      simp only [List.nil_append, List.cons_append, List.singleton_append] at hp
      rw [List.cons_prefix_cons] at hp
      exact absurd (hpre a (by simp)) (hp.1 ▸ hx)
  | cons a r ih =>
    intro pre x k post hp hr hx hpre hk
    cases pre with
    | nil =>
      simp only [List.nil_append, List.cons_append] at hp
      rw [List.cons_prefix_cons] at hp
      exact absurd (hr a (by simp)) (hp.1 ▸ hk)
    | cons b pre =>
      simp only [List.cons_append] at hp
      rw [List.cons_prefix_cons] at hp
      obtain ⟨hab, hp⟩ := hp
      obtain ⟨h1, h2⟩ := ih hp (fun y hy => hr y (by simp [hy])) hx
        (fun y hy => hpre y (by simp [hy])) hk
      exact ⟨by rw [hab, h1], h2⟩

/-- Keys that all succeed come before the first failing key. -/
theorem all_ok_before_failure {α : Type} {ok : α → Prop} :
    ∀ {l pre : List α} {k : α} {post : List α},
      l <+: pre ++ k :: post → (∀ y ∈ l, ok y) → ¬ ok k → l <+: pre := by
  intro l
  induction l with
  | nil => intro pre k post _ _ _; exact List.nil_prefix
  | cons a l ih =>
    intro pre k post hp hl hk
    cases pre with
    | nil =>
      simp only [List.nil_append] at hp
      rw [List.cons_prefix_cons] at hp
      exact absurd (hl a (by simp)) (hp.1 ▸ hk)
    | cons b pre =>
      simp only [List.cons_append] at hp
      rw [List.cons_prefix_cons] at hp
      rw [List.cons_prefix_cons]
      exact ⟨hp.1, ih hp.2 (fun y hy => hl y (by simp [hy])) hk⟩

theorem inv_getCalls_initial {svc : S3} {c : Config} {P : List PAct} {s : Sys}
    (h : Inv svc c P s) : s.getCalls <+: (pKeys P).map (fun x => (c.bucket, x)) := by
  have hpre := inv_prefixes h
  have hcons : s.consumed <+: pKeys P := hpre.2.2.trans hpre.1
  obtain ⟨done, tail, -, -, -, -, -, -, h7, -⟩ := h
  cases hc : s.cons with
  | recv =>
    rw [hc] at h7
    obtain ⟨-, -, -, hg, -⟩ := h7
    rw [hg, gets]
    split
    · exact List.nil_prefix
    · exact hcons.map _
  | cat key pc =>
    rw [hc] at h7
    cases pc with
    | call =>
      obtain ⟨-, r, hr, -, -, ⟨-, -, hg⟩ | ⟨-, m, -, -, hg⟩⟩ := h7
      · rw [hg]
        exact (((List.prefix_append r [key]).trans (hr ▸ hcons))).map _
      · rw [hg, ← hr]
        exact hcons.map _
    | copy resp =>
      obtain ⟨-, r, hr, -, -, hg, -⟩ := h7
      rw [hg, ← hr]
      exact hcons.map _

theorem producer_literal (svc : S3) (humanize : Nat → String) (c : Config) (fuel : Nat)
    (hp : c.argsArePrefix = false) (args : List String) :
    pKeys (producer svc humanize c fuel args) = args ∧
      pCalls (producer svc humanize c fuel args) = [] ∧
      PAct.loop ∉ producer svc humanize c fuel args ∧
      (producer svc humanize c fuel args).length = 2 * args.length := by
  induction args with
  | nil => simp [producer, pKeys, pCalls]
  | cons a rest ih =>
    obtain ⟨h1, h2, h3, h4⟩ := ih
    simp [producer, hp, pKeys, pCalls, h1, h2, h3, h4]
    omega

theorem catOut_eq_objectData {svc : S3} {bucket key : String}
    (h : ∃ resp, svc.getObject bucket key = .ok resp ∧ resp.copyFail = none) :
    catOut svc bucket key = objectData svc bucket key ∧ catErr svc bucket key = none := by
  obtain ⟨resp, h1, h2⟩ := h
  simp [catOut, objectData, catErr, h1, h2, Body.written]

theorem flatMap_congr_mem {α β : Type} {f g : α → List β} :
    ∀ {l : List α}, (∀ x ∈ l, f x = g x) → l.flatMap f = l.flatMap g := by
  intro l
  induction l with
  | nil => intro _; rfl
  | cons a l ih =>
    intro h
    simp only [List.flatMap_cons]
    rw [h a (by simp), ih (fun x hx => h x (by simp [hx]))]

/-! ## The effects of `listAllObjects` -/

theorem pKeys_emit (humanize : Nat → String) (objs : List Object) :
    pKeys (objs.flatMap (emitObject humanize)) = objs.map (fun obj => obj.key) := by
  induction objs with
  | nil => rfl
  | cons a rest ih =>
    simp only [List.flatMap_cons]
    rw [pKeys_append, ih]
    simp [emitObject, pKeys]

theorem pCalls_emit (humanize : Nat → String) (objs : List Object) :
    pCalls (objs.flatMap (emitObject humanize)) = [] := by
  induction objs with
  | nil => rfl
  | cons a rest ih =>
    simp only [List.flatMap_cons]
    rw [pCalls_append, ih]
    simp [emitObject, pCalls]

theorem pLog_emit (humanize : Nat → String) (objs : List Object) :
    pLog false (objs.flatMap (emitObject humanize))
      = objs.map (fun obj => .info ["object", obj.key, humanize (uint64 obj.size)]) := by
  induction objs with
  | nil => rfl
  | cons a rest ih =>
    simp only [List.flatMap_cons]
    rw [pLog_append, ih]
    simp [emitObject, pLog]

theorem pKeys_prefixes (cps : List String) :
    pKeys (cps.map (fun commonPrefix => PAct.info ["prefix", commonPrefix])) = [] := by
  induction cps with
  | nil => rfl
  | cons a rest ih => simp [pKeys, ih]

theorem pCalls_prefixes (cps : List String) :
    pCalls (cps.map (fun commonPrefix => PAct.info ["prefix", commonPrefix])) = [] := by
  induction cps with
  | nil => rfl
  | cons a rest ih => simp [pCalls, ih]

theorem pLog_prefixes (cps : List String) :
    pLog false (cps.map (fun commonPrefix => PAct.info ["prefix", commonPrefix]))
      = cps.map (fun commonPrefix => .info ["prefix", commonPrefix]) := by
  induction cps with
  | nil => rfl
  | cons a rest ih => simp [pLog, ih]

theorem loop_not_mem_emit (humanize : Nat → String) (objs : List Object) :
    PAct.loop ∉ objs.flatMap (emitObject humanize) := by
  simp [emitObject]

theorem err_not_mem_emit (humanize : Nat → String) (objs : List Object) (m : String) :
    PAct.err m ∉ objs.flatMap (emitObject humanize) := by
  simp [emitObject]

/-- The effects of the loop of `listAllObjects` in terms of the pages it walks. -/
theorem listLoop_pages (svc : S3) (humanize : Nat → String) :
    ∀ (fuel : Nat) (req : ListObjectsV2Input) (pages : List ListObjectsV2Output)
      (err : Option String),
      pagesOf svc fuel req = some (pages, err) →
      pKeys (listLoop svc humanize fuel req) = pages.flatMap pageKeys ∧
      PAct.loop ∉ listLoop svc humanize fuel req ∧
      pLog false (listLoop svc humanize fuel req)
        = pages.flatMap (pageLines humanize) ++ err.toList.map LogLine.error ∧
      (pCalls (listLoop svc humanize fuel req)).length = pages.length + err.toList.length := by
  intro fuel
  induction fuel with
  | zero => intro req pages err h; simp [pagesOf] at h
  | succ n ih =>
    intro req pages err h
    unfold pagesOf at h
    unfold listLoop
    cases hcall : svc.listObjectsV2 req with
    | error m =>
      simp only [hcall, Option.some.injEq, Prod.mk.injEq] at h
      obtain ⟨h1, h2⟩ := h
      subst h1 h2
      simp [pKeys, pLog, pCalls]
    | ok page =>
      simp only [hcall] at h
      cases ht : page.isTruncated with
      | false =>
        simp only [ht, Bool.false_eq_true, if_false, Option.some.injEq, Prod.mk.injEq] at h
        obtain ⟨h1, h2⟩ := h
        subst h1 h2
        simp [ht, pKeys, pLog, pCalls, pKeys_append, pLog_append, pCalls_append, pKeys_emit,
          pLog_emit, pCalls_emit, pKeys_prefixes, pLog_prefixes, pCalls_prefixes, pageKeys,
          pageLines, emitObject]
      | true =>
        simp only [ht, if_true, Option.map_eq_some', Prod.mk.injEq] at h
        obtain ⟨⟨rest, err'⟩, hrest, h1, h2⟩ := h
        simp only at h1 h2
        subst h1 h2
        obtain ⟨i1, i2, i3, i4⟩ := ih _ rest err' hrest
        simp only [ht, if_true]
        refine ⟨?_, ?_, ?_, ?_⟩
        · simp [pKeys, pKeys_append, pKeys_emit, pKeys_prefixes, i1, pageKeys]
        · simp [i2, emitObject]
        · simp [pLog, pLog_append, pLog_emit, pLog_prefixes, i3, pageLines]
        · simp [pCalls, pCalls_append, pCalls_emit, pCalls_prefixes, i4]
          omega

theorem pagesOf_ne_nil (svc : S3) :
    ∀ (fuel : Nat) (req : ListObjectsV2Input) (pages : List ListObjectsV2Output),
      pagesOf svc fuel req = some (pages, none) → pages ≠ [] := by
  intro fuel
  cases fuel with
  | zero => intro req pages h; simp [pagesOf] at h
  | succ n =>
    intro req pages h
    unfold pagesOf at h
    cases hcall : svc.listObjectsV2 req with
    | error m => simp [hcall] at h
    | ok page =>
      simp only [hcall] at h
      cases ht : page.isTruncated with
      | false =>
        simp only [ht, Bool.false_eq_true, if_false, Option.some.injEq, Prod.mk.injEq] at h
        rw [← h.1]
        simp
      | true =>
        simp only [ht, if_true, Option.map_eq_some', Prod.mk.injEq] at h
        obtain ⟨r, -, h1, -⟩ := h
        rw [← h1]
        simp

/-- The calls of the loop of `listAllObjects` when none fails: the first request,
then one request per page but the last, with the token of that page. -/
theorem listLoop_calls (svc : S3) (humanize : Nat → String) :
    ∀ (fuel : Nat) (req : ListObjectsV2Input) (pages : List ListObjectsV2Output),
      pagesOf svc fuel req = some (pages, none) →
      pCalls (listLoop svc humanize fuel req)
        = req :: pages.dropLast.map (fun page =>
            { req with continuationToken := page.nextContinuationToken }) := by
  intro fuel
  induction fuel with
  | zero => intro req pages h; simp [pagesOf] at h
  | succ n ih =>
    intro req pages h
    unfold pagesOf at h
    unfold listLoop
    cases hcall : svc.listObjectsV2 req with
    | error m => simp [hcall] at h
    | ok page =>
      simp only [hcall] at h
      cases ht : page.isTruncated with
      | false =>
        simp only [ht, Bool.false_eq_true, if_false, Option.some.injEq, Prod.mk.injEq] at h
        rw [← h.1]
        simp [ht, pCalls, pCalls_append, pCalls_emit, pCalls_prefixes]
      | true =>
        simp only [ht, if_true, Option.map_eq_some', Prod.mk.injEq] at h
        obtain ⟨⟨rest, err'⟩, hrest, h1, h2⟩ := h
        simp only at h1 h2
        subst h1 h2
        have hne := pagesOf_ne_nil svc n _ rest hrest
        have i1 := ih _ rest hrest
        simp only [ht, if_true, pCalls, pCalls_append, pCalls_emit, pCalls_prefixes,
          List.nil_append, i1, List.dropLast_cons_of_ne_nil hne, List.map_cons]

theorem listLoop_first_call (svc : S3) (humanize : Nat → String) (fuel : Nat)
    (req : ListObjectsV2Input) (r : List ListObjectsV2Output × Option String)
    (h : pagesOf svc fuel req = some r) : req ∈ pCalls (listLoop svc humanize fuel req) := by
  cases fuel with
  | zero => simp [pagesOf] at h
  | succ n => simp [listLoop, pCalls]

/-- The goroutine in prefix mode against the pages of the specification. -/
theorem producer_pages (svc : S3) (humanize : Nat → String) (c : Config) (fuel : Nat)
    (hp : c.argsArePrefix = true)
    (pg : String → List ListObjectsV2Output × Option String) :
    ∀ args : List String,
      (∀ a ∈ args, pagesOf svc fuel (listParams c.bucket c.delimiter a) = some (pg a)) →
      pKeys (producer svc humanize c fuel args)
        = args.flatMap (fun a => (pg a).1.flatMap pageKeys) ∧
      PAct.loop ∉ producer svc humanize c fuel args ∧
      pLog false (producer svc humanize c fuel args)
        = args.flatMap (fun a =>
            (pg a).1.flatMap (pageLines humanize) ++ (pg a).2.toList.map LogLine.error) ∧
      (∀ a ∈ args, listParams c.bucket c.delimiter a
        ∈ pCalls (producer svc humanize c fuel args)) := by
  intro args
  induction args with
  | nil => intro _; simp [producer, pKeys, pLog]
  | cons a rest ih =>
    intro hpg
    obtain ⟨i1, i2, i3, i4⟩ := ih (fun x hx => hpg x (by simp [hx]))
    have ha := hpg a (by simp)
    obtain ⟨j1, j2, j3, -⟩ := listLoop_pages svc humanize fuel
      (listParams c.bucket c.delimiter a) (pg a).1 (pg a).2 ha
    have j5 := listLoop_first_call svc humanize fuel _ _ ha
    simp only [producer, hp, if_true, listAllObjects, List.flatMap_cons]
    refine ⟨?_, ?_, ?_, ?_⟩
    · rw [pKeys_append, j1, i1]
    · simp [j2, i2]
    · rw [pLog_append, j3, i3]
    · intro x hx
      rw [pCalls_append]
      rcases List.mem_cons.1 hx with hx | hx
      · subst hx
        exact List.mem_append_left _ j5
      · exact List.mem_append_right _ (i4 x hx)

theorem listLoop_err (svc : S3) (humanize : Nat → String) (req : ListObjectsV2Input)
    (m : String) (hfail : svc.listObjectsV2 req = .error m) :
    ∀ (fuel : Nat) (params : ListObjectsV2Input),
      req ∈ pCalls (listLoop svc humanize fuel params) →
      PAct.err m ∈ listLoop svc humanize fuel params := by
  intro fuel
  induction fuel with
  | zero => intro params h; simp [listLoop, pCalls] at h
  | succ n ih =>
    intro params h
    unfold listLoop at h ⊢
    cases hcall : svc.listObjectsV2 params with
    | error e =>
      simp only [hcall, pCalls, List.mem_cons, List.not_mem_nil, or_false] at h
      subst h
      rw [hfail] at hcall
      cases hcall
      simp
    | ok page =>
      simp only [hcall, pCalls, pCalls_append, pCalls_emit, pCalls_prefixes, List.nil_append,
        List.mem_cons] at h
      rcases h with h | h
      · subst h
        rw [hfail] at hcall
        cases hcall
      · cases ht : page.isTruncated with
        | false => simp [ht, pCalls] at h
        | true =>
          simp only [ht, if_true] at h
          have := ih _ h
          simp [ht, this]

theorem producer_err (svc : S3) (humanize : Nat → String) (c : Config) (fuel : Nat)
    (req : ListObjectsV2Input) (m : String) (hfail : svc.listObjectsV2 req = .error m) :
    ∀ args : List String, req ∈ pCalls (producer svc humanize c fuel args) →
      PAct.err m ∈ producer svc humanize c fuel args := by
  intro args
  induction args with
  | nil => intro h; simp [producer, pCalls] at h
  | cons a rest ih =>
    intro h
    simp only [producer, pCalls_append, List.mem_append] at h ⊢
    rcases h with h | h
    · left
      cases hp : c.argsArePrefix with
      | false => simp [hp, pCalls] at h
      | true =>
        simp only [hp, if_true] at h ⊢
        exact listLoop_err svc humanize req m hfail fuel _ h
    · exact Or.inr (ih h)

theorem pLog_err (d : Bool) (m : String) :
    ∀ P : List PAct, PAct.err m ∈ P → LogLine.error m ∈ pLog d P := by
  intro P
  induction P with
  | nil => intro h; simp at h
  | cons a rest ih =>
    intro h
    rcases List.mem_cons.1 h with h' | h'
    · subst h'
      simp [pLog]
    · have := ih h'
      cases a <;> cases d <;> simp [pLog, this]

theorem producer_append (svc : S3) (humanize : Nat → String) (c : Config) (fuel : Nat)
    (xs ys : List String) :
    producer svc humanize c fuel (xs ++ ys)
      = producer svc humanize c fuel xs ++ producer svc humanize c fuel ys := by
  induction xs with
  | nil => rfl
  | cons a rest ih => simp [producer, ih]

theorem err_of_pLog (m : String) :
    ∀ P : List PAct, LogLine.error m ∈ pLog false P → PAct.err m ∈ P := by
  intro P
  induction P with
  | nil => intro h; simp [pLog] at h
  | cons a rest ih =>
    intro h
    cases a with
    | err msg =>
      simp only [pLog, List.mem_cons, LogLine.error.injEq] at h
      rcases h with h | h
      · simp [h]
      · simp [ih h]
    | info args =>
      simp only [pLog, Bool.false_eq_true, if_false, List.mem_cons] at h
      rcases h with h | h
      · cases h
      · simp [ih h]
    | list params => simp only [pLog] at h; simp [ih h]
    | send key => simp only [pLog] at h; simp [ih h]
    | loop => simp only [pLog] at h; simp [ih h]

theorem catOut_of_catErr_none {svc : S3} {bucket key : String}
    (h : catErr svc bucket key = none) : catOut svc bucket key = objectData svc bucket key := by
  unfold catErr at h
  unfold catOut objectData
  cases hget : svc.getObject bucket key with
  | error e => rfl
  | ok resp =>
    rw [hget] at h
    have hcf : resp.copyFail = none := by
      cases hc : resp.copyFail with
      | none => rfl
      | some nm => simp [hc] at h
    simp [Body.written, hcf]

/-- The `GetObject` calls never go past the first key for which `cat` fails. -/
theorem inv_getCalls_first_failure {svc : S3} {c : Config} {P : List PAct} {s : Sys}
    {pre post : List String} {k m : String}
    (h : Inv svc c P s) (hkeys : pKeys P = pre ++ k :: post)
    (hk : catErr svc c.bucket k = some m) :
    s.getCalls <+: (pre ++ [k]).map (fun x => (c.bucket, x)) := by
  have hbad : ¬ catErr svc c.bucket k = none := by simp [hk]
  have hpp := inv_prefixes h
  have hcons : s.consumed <+: pre ++ k :: post := hkeys ▸ hpp.2.2.trans hpp.1
  have hfull : pre ++ [k] <+: pre ++ k :: post := by
    refine ⟨post, ?_⟩
    simp
  obtain ⟨done, tail, -, -, -, -, -, -, h7, -⟩ := h
  cases hc : s.cons with
  | recv =>
    rw [hc] at h7
    obtain ⟨-, -, hok, hg, -⟩ := h7
    rw [hg, gets]
    cases hd : c.dryRun with
    | true => simp
    | false =>
      simp only [Bool.false_eq_true, if_false]
      exact ((all_ok_before_failure hcons (hok hd) hbad).trans (List.prefix_append pre [k])).map _
  | cat key pc =>
    rw [hc] at h7
    have key_pre : ∀ r, s.consumed = r ++ [key] →
        (∀ x ∈ r, catErr svc c.bucket x = none) → r ++ [key] <+: pre ++ [k] := by
      intro r hr hok
      rw [hr] at hcons
      have h1 : r <+: pre := all_ok_before_failure ((List.prefix_append r [key]).trans hcons) hok hbad
      exact List.prefix_of_prefix_length_le hcons hfull (by
        have := h1.length_le
        simp only [List.length_append, List.length_singleton]
        omega)
    cases pc with
    | call =>
      obtain ⟨-, r, hr, hok, -, ⟨-, -, hg⟩ | ⟨-, e, -, -, hg⟩⟩ := h7
      · rw [hg]
        exact ((List.prefix_append r [key]).trans (key_pre r hr hok)).map _
      · rw [hg]
        exact (key_pre r hr hok).map _
    | copy resp =>
      obtain ⟨-, r, hr, hok, -, hg, -⟩ := h7
      rw [hg]
      exact (key_pre r hr hok).map _

theorem producer_dryRun (svc : S3) (humanize : Nat → String) (c : Config) (fuel : Nat)
    (d : Bool) (args : List String) :
    producer svc humanize { c with dryRun := d } fuel args
      = producer svc humanize c fuel args := by
  induction args with
  | nil => rfl
  | cons a rest ih => simp [producer, ih]

/-! ## Quiet mode -/

theorem prodStep_mute (s : Sys) : prodStep (mute s) = (prodStep s).map mute := by
  unfold prodStep
  cases hp : s.prod with
  | nil => cases hc : s.closed <;> simp [mute, hp, hc]
  | cons a rest =>
    cases a with
    | list params => simp [mute, hp]
    | send key => cases hb : s.buf <;> simp [mute, hp, hb]
    | info args => cases hd : s.infoDiscard <;> simp [mute, hp, hd, LogLine.isError]
    | err msg => simp [mute, hp, LogLine.isError]
    | loop => simp [mute, hp]

theorem consStep_mute (svc : S3) (c : Config) (s : Sys) :
    consStep svc c (mute s) = (consStep svc c s).map mute := by
  unfold consStep
  cases hc : s.cons with
  | recv =>
    cases hb : s.buf with
    | none => cases hcl : s.closed <;> simp [mute, hc, hb, hcl]
    | some key => cases hd : c.dryRun <;> simp [mute, hc, hb, hd]
  | cat key pc =>
    cases pc with
    | call =>
      cases hget : svc.getObject c.bucket key <;>
        simp [mute, hc, cat, hget, fatal, LogLine.isError]
    | copy resp =>
      cases hcf : resp.copyFail <;> simp [mute, hc, cat, hcf, fatal, LogLine.isError]

theorem step_mute (svc : S3) (c : Config) (s : Sys) (b : Bool) :
    step svc c (mute s) b = mute (step svc c s b) := by
  unfold step
  rw [prodStep_mute, consStep_mute]
  have hx : (mute s).exit = s.exit := rfl
  rw [hx]
  cases s.exit.isSome
  · cases b <;> cases prodStep s <;> cases consStep svc c s <;> simp
  · simp

theorem run_mute (svc : S3) (c : Config) (sched : List Bool) :
    ∀ s : Sys, run svc c sched (mute s) = mute (run svc c sched s) := by
  induction sched with
  | nil => intro s; rfl
  | cons b rest ih =>
    intro s
    show run svc c rest (step svc c (mute s) b) = mute (run svc c rest (step svc c s b))
    rw [step_mute, ih]

theorem producer_quiet (svc : S3) (humanize : Nat → String) (c : Config) (fuel : Nat)
    (q : Bool) (args : List String) :
    producer svc humanize { c with quiet := q } fuel args
      = producer svc humanize c fuel args := by
  induction args with
  | nil => rfl
  | cons a rest ih => simp [producer, ih]

theorem run_quiet (svc : S3) (c : Config) (q : Bool) (sched : List Bool) :
    ∀ s : Sys, run svc { c with quiet := q } sched s = run svc c sched s := by
  induction sched with
  | nil => intro s; rfl
  | cons b rest ih =>
    intro s
    show run svc { c with quiet := q } rest (step svc { c with quiet := q } s b)
      = run svc c rest (step svc c s b)
    rw [ih]
    rfl

theorem main_quiet (svc : S3) (humanize : Nat → String) (c : Config) (fuel : Nat)
    (sched : List Bool) (hv : c.showVersion = false) (hb : c.bucket ≠ "") :
    main svc humanize { c with quiet := true } fuel sched
      = mute (main svc humanize { c with quiet := false } fuel sched) := by
  rw [main_eq_run svc humanize { c with quiet := true } fuel sched hv hb,
    main_eq_run svc humanize { c with quiet := false } fuel sched hv hb,
    run_quiet svc c true, run_quiet svc c false, ← run_mute]
  show run svc c sched
      { Sys.init with
        infoDiscard := true
        prod := producer svc humanize { c with quiet := true } fuel c.args }
    = run svc c sched
      (mute { Sys.init with
        infoDiscard := false
        prod := producer svc humanize { c with quiet := false } fuel c.args })
  rw [producer_quiet svc humanize c fuel true, producer_quiet svc humanize c fuel false]
  rfl

/-! ## The claims -/

/-- C1, as amended. Literal keys: for a non-empty bucket, without `-version`,
with prefix mode off and dry-run off, when `GetObject` succeeds for every
argument and every body is copied to standard output without error, no listing
call is ever made, the `GetObject` calls made so far are always an initial part
of the arguments in argument order, and every run of at least `5 * n + 2` steps
has ended with status 0, has called `GetObject` exactly once per argument in
argument order and has written exactly `body(k1) ++ ... ++ body(kn)` to standard
output, with nothing between the bodies. -/
theorem literal_keys_are_concatenated (svc : S3) (humanize : Nat → String) (c : Config)
    (fuel : Nat) (sched : List Bool)
    (hv : c.showVersion = false) (hb : c.bucket ≠ "")
    (hp : c.argsArePrefix = false) (hd : c.dryRun = false)
    (hget : ∀ k ∈ c.args, ∃ resp, svc.getObject c.bucket k = .ok resp ∧ resp.copyFail = none) :
    (main svc humanize c fuel sched).listCalls = [] ∧
      (main svc humanize c fuel sched).getCalls <+: c.args.map (fun k => (c.bucket, k)) ∧
      (5 * c.args.length + 2 ≤ sched.length →
        (main svc humanize c fuel sched).exit = some 0 ∧
        (main svc humanize c fuel sched).getCalls = c.args.map (fun k => (c.bucket, k)) ∧
        (main svc humanize c fuel sched).stdout = c.args.flatMap (objectData svc c.bucket)) := by
  obtain ⟨hk, hcalls, hl, hlen⟩ := producer_literal svc humanize c fuel hp c.args
  have hinv := main_inv svc humanize c fuel sched hv hb
  refine ⟨?_, ?_, ?_⟩
  · have := (inv_prefixes hinv).2.1
    rw [hcalls] at this
    exact List.prefix_nil.1 this
  · have := inv_getCalls_initial hinv
    rwa [hk] at this
  · intro hn
    have hok : c.dryRun = false →
        ∀ x ∈ pKeys (producer svc humanize c fuel c.args), catErr svc c.bucket x = none := by
      intro _ x hx
      rw [hk] at hx
      exact (catOut_eq_objectData (hget x hx)).2
    have hx := main_exit_zero svc humanize c fuel sched hv hb hl hok
      (by simp only [bound, hk, hlen]; omega)
    obtain ⟨-, -, -, -, hg, ho, -⟩ := inv_exit_zero hinv hx
    refine ⟨hx, ?_, ?_⟩
    · simpa [gets, hd, hk] using hg
    · rw [ho, hk]
      simp only [outs, hd, Bool.false_eq_true, if_false]
      exact flatMap_congr_mem (fun x hx => (catOut_eq_objectData (hget x hx)).1)

/-- C2, as amended. Prefix expansion: when the pages obtained for a prefix by
calling the listing operation repeatedly, each call carrying the continuation
token of the previous page, until a page that is not truncated is returned, are
`pages` (every call succeeds), then `listAllObjects` makes exactly these calls,
sends exactly the matched keys of the pages, in page order then in-page order,
and ends; the common prefixes of a page only give `prefix` log lines, never keys.
And in every prefix-mode run in which that prefix is one of the arguments, the
enumeration is finite and every retrieval succeeds (or dry-run is on), the keys
on the channel after at least `bound` steps are those of the arguments before
it, then these keys, then those of the arguments after it. -/
theorem listAllObjects_emits_page_keys (svc : S3) (humanize : Nat → String) (c : Config)
    (fuel : Nat) (pfx : String) (pages : List ListObjectsV2Output)
    (hpages : pagesOf svc fuel (listParams c.bucket c.delimiter pfx) = some (pages, none)) :
    pKeys (listAllObjects svc humanize fuel c.bucket c.delimiter pfx)
        = pages.flatMap pageKeys ∧
      PAct.loop ∉ listAllObjects svc humanize fuel c.bucket c.delimiter pfx ∧
      pLog false (listAllObjects svc humanize fuel c.bucket c.delimiter pfx)
        = pages.flatMap (pageLines humanize) ∧
      pCalls (listAllObjects svc humanize fuel c.bucket c.delimiter pfx)
        = listParams c.bucket c.delimiter pfx :: pages.dropLast.map (fun page =>
            { listParams c.bucket c.delimiter pfx with
              continuationToken := page.nextContinuationToken }) ∧
      (∀ (sched : List Bool) (before after : List String),
        c.showVersion = false → c.bucket ≠ "" → c.argsArePrefix = true →
        c.args = before ++ pfx :: after →
        PAct.loop ∉ producer svc humanize c fuel c.args →
        (c.dryRun = false →
          ∀ x ∈ pKeys (producer svc humanize c fuel c.args), catErr svc c.bucket x = none) →
        bound (producer svc humanize c fuel c.args) ≤ sched.length →
        (main svc humanize c fuel sched).exit = some 0 ∧
        (main svc humanize c fuel sched).emitted
          = pKeys (producer svc humanize c fuel before) ++ pages.flatMap pageKeys
            ++ pKeys (producer svc humanize c fuel after)) := by
  obtain ⟨j1, j2, j3, j4⟩ := listLoop_pages svc humanize fuel
    (listParams c.bucket c.delimiter pfx) pages none hpages
  refine ⟨j1, j2, by simpa using j3,
    listLoop_calls svc humanize fuel (listParams c.bucket c.delimiter pfx) pages hpages, ?_⟩
  intro sched before after hv hb hp hargs hl hok hn
  have hx := main_exit_zero svc humanize c fuel sched hv hb hl hok hn
  obtain ⟨he, -⟩ := inv_exit_zero (main_inv svc humanize c fuel sched hv hb) hx
  refine ⟨hx, ?_⟩
  rw [he, hargs, producer_append, pKeys_append]
  simp only [producer, hp, if_true, pKeys_append, listAllObjects, j1, List.append_assoc]

/-- C4. Listing failure in prefix mode: let the pages of each argument be those
obtained before its first failing call (or all of them when no call fails).
Then the keys that the goroutine sends are the keys of these pages, concatenated
in argument order, and it does not loop; the keys on the channel are always an
initial part of them; and when no retrieval ends the process
(every one succeeds, or dry-run is on), a run of at least `bound` steps has put
exactly these keys on the channel, has reported the error of every failing call
on the error log, and, without `-quiet`, has logged the lines of each argument in
argument order: its pages, then its error. -/
theorem listing_failure_skips_rest_of_argument (svc : S3) (humanize : Nat → String)
    (c : Config) (fuel : Nat) (sched : List Bool)
    (pg : String → List ListObjectsV2Output × Option String)
    (hv : c.showVersion = false) (hb : c.bucket ≠ "") (hp : c.argsArePrefix = true)
    (hpg : ∀ a ∈ c.args, pagesOf svc fuel (listParams c.bucket c.delimiter a) = some (pg a)) :
    pKeys (producer svc humanize c fuel c.args)
        = c.args.flatMap (fun a => (pg a).1.flatMap pageKeys) ∧
      PAct.loop ∉ producer svc humanize c fuel c.args ∧
      (main svc humanize c fuel sched).emitted
        <+: c.args.flatMap (fun a => (pg a).1.flatMap pageKeys) ∧
      ((c.dryRun = false →
          ∀ x ∈ c.args.flatMap (fun a => (pg a).1.flatMap pageKeys),
            catErr svc c.bucket x = none) →
        bound (producer svc humanize c fuel c.args) ≤ sched.length →
        (main svc humanize c fuel sched).emitted
          = c.args.flatMap (fun a => (pg a).1.flatMap pageKeys) ∧
        (∀ a ∈ c.args, ∀ m, (pg a).2 = some m →
          LogLine.error m ∈ (main svc humanize c fuel sched).stderr) ∧
        (c.quiet = false →
          (main svc humanize c fuel sched).stderr
            = c.args.flatMap (fun a =>
                (pg a).1.flatMap (pageLines humanize)
                  ++ (pg a).2.toList.map LogLine.error))) := by
  obtain ⟨p1, p2, p3, -⟩ := producer_pages svc humanize c fuel hp pg c.args hpg
  have hinv := main_inv svc humanize c fuel sched hv hb
  refine ⟨p1, p2, ?_, ?_⟩
  · rw [← p1]
    exact (inv_prefixes hinv).1
  · intro hok hn
    have hx := main_exit_zero svc humanize c fuel sched hv hb p2 (by rwa [p1]) hn
    obtain ⟨he, -, -, hlog, -⟩ := inv_exit_zero hinv hx
    rw [main_infoDiscard svc humanize c fuel sched hv hb] at hlog
    refine ⟨by rw [he, p1], ?_, ?_⟩
    · intro a ha m hm
      rw [hlog]
      refine pLog_err _ m _ (err_of_pLog m _ ?_)
      rw [p3]
      refine List.mem_flatMap.2 ⟨a, ha, ?_⟩
      simp [hm]
    · intro hq
      rw [hlog, hq, p3]

/-- C6. A failing listing call is logged and does not change the exit status:
when the enumeration is finite, some `ListObjectsV2` call of the run fails with
error `m` (which only happens in prefix mode), and `cat` succeeds for every key
enumerated (or dry-run is on), the process never exits with status 1, and every
run of at least `bound` steps has made the failing call, has written `m` to
the error log and has ended with status 0. -/
theorem listing_failure_still_exits_zero (svc : S3) (humanize : Nat → String) (c : Config)
    (fuel : Nat) (sched : List Bool) (req : ListObjectsV2Input) (m : String)
    (hv : c.showVersion = false) (hb : c.bucket ≠ "")
    (hl : PAct.loop ∉ producer svc humanize c fuel c.args)
    (hreq : req ∈ pCalls (producer svc humanize c fuel c.args))
    (hfail : svc.listObjectsV2 req = .error m)
    (hok : c.dryRun = false →
      ∀ x ∈ pKeys (producer svc humanize c fuel c.args), catErr svc c.bucket x = none) :
    c.argsArePrefix = true ∧
      (main svc humanize c fuel sched).exit ≠ some 1 ∧
      (bound (producer svc humanize c fuel c.args) ≤ sched.length →
        (main svc humanize c fuel sched).exit = some 0 ∧
        req ∈ (main svc humanize c fuel sched).listCalls ∧
        LogLine.error m ∈ (main svc humanize c fuel sched).stderr) := by
  have hinv := main_inv svc humanize c fuel sched hv hb
  refine ⟨?_, ?_, ?_⟩
  · cases hp : c.argsArePrefix with
    | true => rfl
    | false =>
      rw [(producer_literal svc humanize c fuel hp c.args).2.1] at hreq
      simp at hreq
  · intro h1
    obtain ⟨hd, done, r, key, e, -, hpre, -, hm, -⟩ := inv_exit_one hinv h1
    have hmem : key ∈ pKeys (producer svc humanize c fuel c.args) := hpre.subset (by simp)
    rw [hok hd key hmem] at hm
    simp at hm
  · intro hn
    have hx := main_exit_zero svc humanize c fuel sched hv hb hl hok hn
    obtain ⟨-, -, hcalls, hlog, -⟩ := inv_exit_zero hinv hx
    refine ⟨hx, by rwa [hcalls], ?_⟩
    rw [hlog]
    exact pLog_err _ m _ (producer_err svc humanize c fuel req m hfail c.args hreq)

/-- C3. First failure: with dry-run off, when the enumerated keys are
`pre ++ k :: post`, `cat` succeeds for every key of `pre` and fails for `k`
with error `m` (at `GetObject` or at the copy), the process is running or has
ended with status 1, and never calls `GetObject` beyond `pre ++ [k]`; when it
has ended,
standard output holds exactly the bodies of `pre` followed by the bytes of `k`
copied before the failure, `GetObject` has been called exactly for
`pre ++ [k]`, and `m` is the last line of the error log; and when the
enumeration is finite every run of at least `bound` steps has ended with
status 1. -/
theorem first_failure_aborts (svc : S3) (humanize : Nat → String) (c : Config)
    (fuel : Nat) (sched : List Bool) (pre post : List String) (k m : String)
    (hv : c.showVersion = false) (hb : c.bucket ≠ "") (hd : c.dryRun = false)
    (hkeys : pKeys (producer svc humanize c fuel c.args) = pre ++ k :: post)
    (hpre : ∀ x ∈ pre, catErr svc c.bucket x = none)
    (hk : catErr svc c.bucket k = some m) :
    ((main svc humanize c fuel sched).exit = none ∨
        (main svc humanize c fuel sched).exit = some 1) ∧
      (main svc humanize c fuel sched).getCalls
        <+: (pre ++ [k]).map (fun x => (c.bucket, x)) ∧
      ((main svc humanize c fuel sched).exit = some 1 →
        (main svc humanize c fuel sched).stdout
          = pre.flatMap (objectData svc c.bucket) ++ catOut svc c.bucket k ∧
        (main svc humanize c fuel sched).getCalls
          = (pre ++ [k]).map (fun x => (c.bucket, x)) ∧
        (main svc humanize c fuel sched).consumed = pre ++ [k] ∧
        (main svc humanize c fuel sched).stderr.getLast? = some (.error m)) ∧
      (PAct.loop ∉ producer svc humanize c fuel c.args →
        bound (producer svc humanize c fuel c.args) ≤ sched.length →
        (main svc humanize c fuel sched).exit = some 1) := by
  have hinv := main_inv svc humanize c fuel sched hv hb
  have hbad : ¬ catErr svc c.bucket k = none := by simp [hk]
  have hne : (main svc humanize c fuel sched).exit ≠ some 0 := by
    intro h0
    obtain ⟨-, -, -, -, -, -, hok⟩ := inv_exit_zero hinv h0
    exact hbad (hok hd k (by simp [hkeys]))
  have hcases : (main svc humanize c fuel sched).exit = none ∨
      (main svc humanize c fuel sched).exit = some 1 := by
    rcases inv_exit_cases hinv with h | h | h
    · exact Or.inl h
    · exact absurd h hne
    · exact Or.inr h
  refine ⟨hcases, inv_getCalls_first_failure hinv hkeys hk, ?_, ?_⟩
  · intro h1
    obtain ⟨-, done, r, key, e, -, hpfx, hr, he, hcons, hg, ho, hlog, -⟩ :=
      inv_exit_one hinv h1
    rw [hkeys] at hpfx
    obtain ⟨e1, e2⟩ := first_failure_unique (fun x => catErr svc c.bucket x = none)
      hpfx hr (by simp [he]) hpre hbad
    subst e1 e2
    have hm : e = m := by
      rw [hk] at he
      exact (Option.some.inj he).symm
    subst hm
    refine ⟨?_, hg, hcons, by rw [hlog, List.getLast?_concat]⟩
    rw [ho, flatMap_congr_mem (fun x hx => catOut_of_catErr_none (hr x hx))]
  · intro hl hn
    rcases hcases with h | h
    · exact absurd h (main_terminates svc humanize c fuel sched hv hb hl hn)
    · exact h

/-- C7, as amended. Dry-run: with dry-run on and without `-version`, no
`GetObject` call is ever made and nothing is ever written to standard output
(whatever the bucket name, the backend and the schedule); and when the
enumeration is finite, the keys sent and received, the lines logged and the
listing calls made by a run of at least `bound` steps are the same as in any
run of at least `bound` steps of the same command line with dry-run off in
which `cat` succeeds for every key. -/
theorem dry_run_skips_retrieval (svc : S3) (humanize : Nat → String) (c : Config)
    (fuel : Nat) (sched sched' : List Bool)
    (hv : c.showVersion = false) (hd : c.dryRun = true) :
    (main svc humanize c fuel sched).getCalls = [] ∧
      (main svc humanize c fuel sched).stdout = [] ∧
      (PAct.loop ∉ producer svc humanize c fuel c.args →
        (∀ x ∈ pKeys (producer svc humanize c fuel c.args), catErr svc c.bucket x = none) →
        bound (producer svc humanize c fuel c.args) ≤ sched.length →
        bound (producer svc humanize c fuel c.args) ≤ sched'.length →
        (main svc humanize c fuel sched).emitted
          = (main svc humanize { c with dryRun := false } fuel sched').emitted ∧
        (main svc humanize c fuel sched).consumed
          = (main svc humanize { c with dryRun := false } fuel sched').consumed ∧
        (main svc humanize c fuel sched).consumed
          = (main svc humanize c fuel sched).emitted ∧
        (main svc humanize c fuel sched).stderr
          = (main svc humanize { c with dryRun := false } fuel sched').stderr ∧
        (main svc humanize c fuel sched).listCalls
          = (main svc humanize { c with dryRun := false } fuel sched').listCalls) := by
  by_cases hb : c.bucket = ""
  · have e1 : ∀ (c' : Config) (sch : List Bool), c'.showVersion = false → c'.bucket = "" →
        main svc humanize c' fuel sch = fatal "bucket name required" Sys.init := by
      intro c' sch h1 h2
      simp [main, h1, h2]
    rw [e1 c sched hv hb, e1 { c with dryRun := false } sched' hv hb]
    simp [fatal, Sys.init]
  · have hinv := main_inv svc humanize c fuel sched hv hb
    obtain ⟨g1, g2⟩ := inv_dryRun hinv hd
    refine ⟨g1, g2, ?_⟩
    intro hl hok hn hn'
    have hx := main_exit_zero svc humanize c fuel sched hv hb hl (fun _ => hok) hn
    obtain ⟨a1, a2, a3, a4, -⟩ := inv_exit_zero hinv hx
    have hP := producer_dryRun svc humanize c fuel false c.args
    have hinv' := main_inv svc humanize { c with dryRun := false } fuel sched' hv hb
    have hx' := main_exit_zero svc humanize { c with dryRun := false } fuel sched' hv hb
      (by rw [hP]; exact hl) (by intro _; rw [hP]; exact hok) (by rw [hP]; exact hn')
    obtain ⟨b1, b2, b3, b4, -⟩ := inv_exit_zero hinv' hx'
    rw [hP] at b1 b2 b3 b4
    rw [main_infoDiscard svc humanize c fuel sched hv hb] at a4
    have q' := main_infoDiscard svc humanize { c with dryRun := false } fuel sched' hv hb
    rw [q'] at b4
    exact ⟨a1.trans b1.symm, a2.trans b2.symm, a2.trans a1.symm, a4.trans b4.symm,
      a3.trans b3.symm⟩

/-- C8. With `-version`, whatever the other flags, the arguments and the
schedule, the process writes exactly `<cmd> 0.0.1` and a newline to standard
output, ends with status 0, makes no listing call and no `GetObject` call, puts
no key on the channel and logs nothing. -/
theorem version_flag_prints_version (svc : S3) (humanize : Nat → String) (c : Config)
    (fuel : Nat) (sched : List Bool) (hv : c.showVersion = true) :
    (main svc humanize c fuel sched).stdout = bytes (c.cmdName ++ " 0.0.1\n") ∧
      (main svc humanize c fuel sched).exit = some 0 ∧
      (main svc humanize c fuel sched).listCalls = [] ∧
      (main svc humanize c fuel sched).getCalls = [] ∧
      (main svc humanize c fuel sched).emitted = [] ∧
      (main svc humanize c fuel sched).stderr = [] := by
  have e : c.cmdName ++ " " ++ VERSION ++ "\n" = c.cmdName ++ " 0.0.1\n" := by
    rw [String.append_assoc, String.append_assoc]
    rfl
  simp [main, hv, Sys.init, e]

/-- C9. Without `-version` and with an empty bucket name, whatever the other
flags, the arguments and the schedule, the process logs the error
`bucket name required` and ends with status 1 without a listing call, a
`GetObject` call, a key on the channel or a byte on standard output. -/
theorem missing_bucket_is_fatal (svc : S3) (humanize : Nat → String) (c : Config)
    (fuel : Nat) (sched : List Bool) (hv : c.showVersion = false) (hb : c.bucket = "") :
    (main svc humanize c fuel sched).exit = some 1 ∧
      (main svc humanize c fuel sched).stderr = [.error "bucket name required"] ∧
      (main svc humanize c fuel sched).listCalls = [] ∧
      (main svc humanize c fuel sched).getCalls = [] ∧
      (main svc humanize c fuel sched).emitted = [] ∧
      (main svc humanize c fuel sched).stdout = [] := by
  simp [main, hv, hb, fatal, Sys.init]

/-- C10. Quiet mode: for every backend, command line and schedule, the run
with `-quiet` and the run without it have the same standard output, the same
listing calls, the same `GetObject` calls, the same keys sent and received and
the same exit status; the quiet run logs no informational line, and its log
is the log of the other run without the informational lines. -/
theorem quiet_only_hides_info (svc : S3) (humanize : Nat → String) (c : Config)
    (fuel : Nat) (sched : List Bool) :
    (main svc humanize { c with quiet := true } fuel sched).stderr
        = (main svc humanize { c with quiet := false } fuel sched).stderr.filter
            LogLine.isError ∧
      (∀ l ∈ (main svc humanize { c with quiet := true } fuel sched).stderr,
        l.isError = true) ∧
      (main svc humanize { c with quiet := true } fuel sched).stdout
        = (main svc humanize { c with quiet := false } fuel sched).stdout ∧
      (main svc humanize { c with quiet := true } fuel sched).listCalls
        = (main svc humanize { c with quiet := false } fuel sched).listCalls ∧
      (main svc humanize { c with quiet := true } fuel sched).getCalls
        = (main svc humanize { c with quiet := false } fuel sched).getCalls ∧
      (main svc humanize { c with quiet := true } fuel sched).emitted
        = (main svc humanize { c with quiet := false } fuel sched).emitted ∧
      (main svc humanize { c with quiet := true } fuel sched).consumed
        = (main svc humanize { c with quiet := false } fuel sched).consumed ∧
      (main svc humanize { c with quiet := true } fuel sched).exit
        = (main svc humanize { c with quiet := false } fuel sched).exit := by
  rcases Bool.eq_false_or_eq_true c.showVersion with hv | hv
  · simp [main, hv, Sys.init]
  · by_cases hb : c.bucket = ""
    · simp [main, hv, hb, fatal, Sys.init, LogLine.isError]
    · rw [main_quiet svc humanize c fuel sched hv hb]
      refine ⟨rfl, ?_, rfl, rfl, rfl, rfl, rfl, rfl⟩
      intro l hl
      exact (List.mem_filter.1 hl).2

/-- C5, as amended. In prefix mode a failing listing call ends the enumeration
of its own argument only: `listAllObjects` returns and the loop of the
goroutine goes on. When the arguments are `before ++ p :: after`, a listing
call for `p` fails with error `m` and every retrieval succeeds (or dry-run is
on), a run of at least `bound` steps has ended with status 0, has logged `m`, has
made the first listing call of every argument of `after`, and has put on the
channel the keys of `before`, the keys of the pages of `p` before the failing
call, and then the keys of every argument of `after`. -/
theorem listing_failure_continues_with_next_argument (svc : S3) (humanize : Nat → String)
    (c : Config) (fuel : Nat) (sched : List Bool)
    (pg : String → List ListObjectsV2Output × Option String)
    (before after : List String) (p m : String)
    (hv : c.showVersion = false) (hb : c.bucket ≠ "") (hp : c.argsArePrefix = true)
    (hargs : c.args = before ++ p :: after)
    (hpg : ∀ a ∈ c.args, pagesOf svc fuel (listParams c.bucket c.delimiter a) = some (pg a))
    (hfail : (pg p).2 = some m)
    (hok : c.dryRun = false →
      ∀ x ∈ c.args.flatMap (fun a => (pg a).1.flatMap pageKeys),
        catErr svc c.bucket x = none)
    (hn : bound (producer svc humanize c fuel c.args) ≤ sched.length) :
    (main svc humanize c fuel sched).exit = some 0 ∧
      LogLine.error m ∈ (main svc humanize c fuel sched).stderr ∧
      (∀ q ∈ after, listParams c.bucket c.delimiter q
        ∈ (main svc humanize c fuel sched).listCalls) ∧
      (main svc humanize c fuel sched).emitted
        = before.flatMap (fun a => (pg a).1.flatMap pageKeys)
          ++ (pg p).1.flatMap pageKeys
          ++ after.flatMap (fun a => (pg a).1.flatMap pageKeys) := by
  obtain ⟨p1, p2, p3, p4⟩ := producer_pages svc humanize c fuel hp pg c.args hpg
  have hinv := main_inv svc humanize c fuel sched hv hb
  have hx := main_exit_zero svc humanize c fuel sched hv hb p2 (by rwa [p1]) hn
  obtain ⟨he, -, hcalls, hlog, -⟩ := inv_exit_zero hinv hx
  refine ⟨hx, ?_, ?_, ?_⟩
  · rw [hlog]
    refine pLog_err _ m _ (err_of_pLog m _ ?_)
    rw [p3]
    refine List.mem_flatMap.2 ⟨p, by simp [hargs], ?_⟩
    simp [hfail]
  · intro q hq
    rw [hcalls]
    exact p4 q (by simp [hargs, hq])
  · rw [he, p1, hargs]
    simp

/-! ## Concrete runs -/

set_option maxRecDepth 100000

/-- C1, counterexample. `GetObject` succeeds for `a.txt`, `torn` and `b.txt`,
but the copy of `torn` breaks after two of its three bytes: the process ends
with status 1, `GetObject` is never called for `b.txt`, and standard output is
not the concatenation of the three bodies. And with `-version` no `GetObject`
call is made at all and standard output holds the version line. -/
theorem literal_keys_are_concatenated_counterexample :
    exTorn.bucket ≠ "" ∧ exTorn.argsArePrefix = false ∧ exTorn.dryRun = false ∧
      (∀ k ∈ exTorn.args, ∃ resp, exSvc.getObject exTorn.bucket k = .ok resp) ∧
      (main exSvc exHumanize exTorn 0 exSched).exit = some 1 ∧
      (main exSvc exHumanize exTorn 0 exSched).getCalls = [("b", "a.txt"), ("b", "torn")] ∧
      (main exSvc exHumanize exTorn 0 exSched).stdout = bytes "a.txt" ++ [1, 2] ∧
      (main exSvc exHumanize exTorn 0 exSched).stdout
        ≠ exTorn.args.flatMap (objectData exSvc exTorn.bucket) ∧
      (main exSvc exHumanize exVersionLiteral 0 exSched).getCalls = [] ∧
      (main exSvc exHumanize exVersionLiteral 0 exSched).stdout = bytes "cats3 0.0.1\n" := by
  refine ⟨by decide, rfl, rfl, ?_, by decide, by decide, by decide, by decide, by decide,
    by decide⟩
  intro k hk
  simp only [exTorn, List.mem_cons, List.mem_singleton, List.not_mem_nil, or_false] at hk
  rcases hk with rfl | rfl | rfl
  · exact ⟨_, rfl⟩
  · exact ⟨_, rfl⟩
  · exact ⟨_, rfl⟩

/-- C1, witness: `cats3 -bucket b a.txt b.txt` writes the two bodies in order. -/
theorem literal_keys_are_concatenated_witness :
    (∀ k ∈ exLiteral.args,
        ∃ resp, exSvc.getObject exLiteral.bucket k = .ok resp ∧ resp.copyFail = none) ∧
      (main exSvc exHumanize exLiteral 0 exSched).listCalls = [] ∧
      (main exSvc exHumanize exLiteral 0 exSched).exit = some 0 ∧
      (main exSvc exHumanize exLiteral 0 exSched).getCalls = [("b", "a.txt"), ("b", "b.txt")] ∧
      (main exSvc exHumanize exLiteral 0 exSched).stdout = bytes "a.txt" ++ bytes "b.txt" := by
  have hget : ∀ k ∈ exLiteral.args,
      ∃ resp, exSvc.getObject exLiteral.bucket k = .ok resp ∧ resp.copyFail = none := by
    intro k hk
    simp only [exLiteral, List.mem_cons, List.mem_singleton, List.not_mem_nil, or_false] at hk
    rcases hk with rfl | rfl
    · exact ⟨_, rfl, rfl⟩
    · exact ⟨_, rfl, rfl⟩
  have h := literal_keys_are_concatenated exSvc exHumanize exLiteral 0 exSched rfl (by decide)
    rfl rfl hget
  obtain ⟨h1, -, h3⟩ := h
  obtain ⟨h4, h5, h6⟩ := h3 (by decide)
  exact ⟨hget, h1, h4, h5, h6⟩

/-- C2, counterexample. Every listing call of `exLoose` succeeds, and calling
it until a page with no continuation token is returned gives two pages, with
keys `x/1` and `x/2`; `listAllObjects` stops after the first page, which is not
truncated, and sends `x/1` only. -/
theorem listAllObjects_emits_page_keys_counterexample :
    pagesUntilNoToken exLoose 5 (listParams "b" "/" "x/")
        = some
            [{ contents := [{ key := "x/1", size := 1 }], commonPrefixes := []
               isTruncated := false, nextContinuationToken := some "T" },
             { contents := [{ key := "x/2", size := 1 }], commonPrefixes := []
               isTruncated := false, nextContinuationToken := none }] ∧
      pKeys (listAllObjects exLoose exHumanize 5 "b" "/" "x/") = ["x/1"] ∧
      (pCalls (listAllObjects exLoose exHumanize 5 "b" "/" "x/")).length = 1 ∧
      (main exLoose exHumanize exLooseCfg 5 exSched).exit = some 0 ∧
      (main exLoose exHumanize exLooseCfg 5 exSched).emitted = ["x/1"] := by
  refine ⟨?_, ?_, ?_, ?_, ?_⟩ <;> decide

/-- C2, witness: the two pages of `logs/` give the keys `logs/1.log`, `logs/2.log`. -/
theorem listAllObjects_emits_page_keys_witness :
    pagesOf exSvc 3 (listParams exPrefixes.bucket exPrefixes.delimiter "logs/")
        = some ((exPages "logs/").1, none) ∧
      pKeys (listAllObjects exSvc exHumanize 3 exPrefixes.bucket exPrefixes.delimiter "logs/")
        = ["logs/1.log", "logs/2.log"] ∧
      pCalls (listAllObjects exSvc exHumanize 3 exPrefixes.bucket exPrefixes.delimiter "logs/")
        = [listParams "b" "/" "logs/",
            { listParams "b" "/" "logs/" with continuationToken := some "X" }] ∧
      (main exSvc exHumanize exPrefixes 3 exSched).exit = some 0 ∧
      (main exSvc exHumanize exPrefixes 3 exSched).emitted = ["logs/1.log", "logs/2.log"] := by
  have hpages : pagesOf exSvc 3 (listParams exPrefixes.bucket exPrefixes.delimiter "logs/")
      = some ((exPages "logs/").1, none) := by decide
  have h := listAllObjects_emits_page_keys exSvc exHumanize exPrefixes 3 "logs/"
    (exPages "logs/").1 hpages
  obtain ⟨h1, -, -, h4, h5⟩ := h
  obtain ⟨h6, h7⟩ := h5 exSched ["a/"] [] rfl (by decide) rfl rfl (by decide) (by decide)
    (by decide)
  exact ⟨hpages, h1, h4, h6, h7⟩

/-- C3, witness: the copy of `torn` breaks after `a.txt` was written; `b.txt` is never fetched. -/
theorem first_failure_aborts_witness :
    pKeys (producer exSvc exHumanize exTorn 0 exTorn.args) = ["a.txt"] ++ "torn" :: ["b.txt"] ∧
      catErr exSvc exTorn.bucket "torn" = some "broken pipe" ∧
      (main exSvc exHumanize exTorn 0 exSched').exit = some 1 ∧
      (main exSvc exHumanize exTorn 0 exSched').stdout = bytes "a.txt" ++ [1, 2] ∧
      (main exSvc exHumanize exTorn 0 exSched').getCalls = [("b", "a.txt"), ("b", "torn")] ∧
      (main exSvc exHumanize exTorn 0 exSched').stderr.getLast?
        = some (.error "broken pipe") := by
  have hkeys : pKeys (producer exSvc exHumanize exTorn 0 exTorn.args)
      = ["a.txt"] ++ "torn" :: ["b.txt"] := by decide
  have hk : catErr exSvc exTorn.bucket "torn" = some "broken pipe" := by decide
  have h := first_failure_aborts exSvc exHumanize exTorn 0 exSched' ["a.txt"] ["b.txt"]
    "torn" "broken pipe" rfl (by decide) rfl hkeys (by decide) hk
  obtain ⟨-, -, h3, h4⟩ := h
  have hx := h4 (by decide) (by decide)
  obtain ⟨g1, g2, -, g4⟩ := h3 hx
  exact ⟨hkeys, hk, hx, g1, g2, g4⟩

/-- C4, witness: the listing of `a/` is denied, the keys of `logs/` follow. -/
theorem listing_failure_skips_rest_of_argument_witness :
    exSvc.listObjectsV2 (listParams exPrefixes.bucket exPrefixes.delimiter "a/")
        = .error "AccessDenied" ∧
      (main exSvc exHumanize exPrefixes 3 exSched).emitted = ["logs/1.log", "logs/2.log"] ∧
      LogLine.error "AccessDenied" ∈ (main exSvc exHumanize exPrefixes 3 exSched).stderr ∧
      (main exSvc exHumanize exPrefixes 3 exSched).stderr
        = [.error "AccessDenied", .info ["object", "logs/1.log", "large"],
            .info ["prefix", "logs/old/"], .info ["object", "logs/2.log", "small"]] := by
  have h := listing_failure_skips_rest_of_argument exSvc exHumanize exPrefixes 3 exSched
    exPages rfl (by decide) rfl (by decide)
  obtain ⟨h1, h2, h3⟩ := h.2.2.2 (by decide) (by decide)
  exact ⟨rfl, h1, h2 "a/" (by decide) "AccessDenied" rfl, h3 rfl⟩

/-- C5, counterexample. The listing of the first argument `a/` fails, and yet
the listing calls of the later argument `logs/` are made and its two keys are
put on the channel. -/
theorem listing_failure_ends_all_enumeration_counterexample :
    exPrefixes.argsArePrefix = true ∧ exPrefixes.args = ["a/", "logs/"] ∧
      exSvc.listObjectsV2 (listParams exPrefixes.bucket exPrefixes.delimiter "a/")
        = .error "AccessDenied" ∧
      (main exSvc exHumanize exPrefixes 3 exSched).emitted = ["logs/1.log", "logs/2.log"] ∧
      (main exSvc exHumanize exPrefixes 3 exSched).listCalls
        = [listParams "b" "/" "a/", listParams "b" "/" "logs/",
            { listParams "b" "/" "logs/" with continuationToken := some "X" }] ∧
      (main exSvc exHumanize exPrefixes 3 exSched).stderr.head?
        = some (.error "AccessDenied") := by
  refine ⟨rfl, rfl, rfl, ?_, ?_, ?_⟩
  · decide
  · rfl
  · decide

/-- C5, witness of the amended claim: after the failure on `a/`, `logs/` is listed and its keys are sent. -/
theorem listing_failure_continues_with_next_argument_witness :
    (exPages "a/").2 = some "AccessDenied" ∧
      (main exSvc exHumanize exPrefixes 3 exSched').exit = some 0 ∧
      LogLine.error "AccessDenied" ∈ (main exSvc exHumanize exPrefixes 3 exSched').stderr ∧
      listParams exPrefixes.bucket exPrefixes.delimiter "logs/"
        ∈ (main exSvc exHumanize exPrefixes 3 exSched').listCalls ∧
      (main exSvc exHumanize exPrefixes 3 exSched').emitted
        = ["logs/1.log", "logs/2.log"] := by
  have h := listing_failure_continues_with_next_argument exSvc exHumanize exPrefixes 3
    exSched' exPages [] ["logs/"] "a/" "AccessDenied" rfl (by decide) rfl rfl (by decide)
    rfl (by decide) (by decide)
  obtain ⟨h1, h2, h3, h4⟩ := h
  exact ⟨rfl, h1, h2, h3 "logs/" (by decide), h4⟩

/-- C6, witness: the listing of `a/` is denied, the error is logged, the status is 0. -/
theorem listing_failure_still_exits_zero_witness :
    exSvc.listObjectsV2 (listParams "b" "/" "a/") = .error "AccessDenied" ∧
      (main exSvc exHumanize exPrefixes 3 exSched).exit = some 0 ∧
      listParams "b" "/" "a/" ∈ (main exSvc exHumanize exPrefixes 3 exSched).listCalls ∧
      LogLine.error "AccessDenied" ∈ (main exSvc exHumanize exPrefixes 3 exSched).stderr := by
  have h := listing_failure_still_exits_zero exSvc exHumanize exPrefixes 3 exSched
    (listParams "b" "/" "a/") "AccessDenied" rfl (by decide) (by decide) (by decide) rfl
    (by decide)
  obtain ⟨-, -, h3⟩ := h
  exact ⟨rfl, h3 (by decide)⟩

/-- C7, counterexample. With `-version` and dry-run on, the version line is
written to standard output. And the keys consumed differ from those of a run
with dry-run off in which every `GetObject` succeeds but a copy fails: the dry
run of `a.txt torn b.txt` receives the three keys, the other run ends at
`torn`. -/
theorem dry_run_skips_retrieval_counterexample :
    exVersionDry.dryRun = true ∧
      (main exSvc exHumanize exVersionDry 3 exSched).stdout = bytes "cats3 0.0.1\n" ∧
      (main exSvc exHumanize exVersionDry 3 exSched).stdout ≠ [] ∧
      (∀ k ∈ exTorn.args, ∃ resp, exSvc.getObject exTorn.bucket k = .ok resp) ∧
      (main exSvc exHumanize { exTorn with dryRun := true } 0 exSched).consumed
        = ["a.txt", "torn", "b.txt"] ∧
      (main exSvc exHumanize { exTorn with dryRun := false } 0 exSched).consumed
        = ["a.txt", "torn"] := by
  refine ⟨rfl, by decide, by decide, ?_, by decide, by decide⟩
  intro k hk
  simp only [exTorn, List.mem_cons, List.mem_singleton, List.not_mem_nil, or_false] at hk
  rcases hk with rfl | rfl | rfl
  · exact ⟨_, rfl⟩
  · exact ⟨_, rfl⟩
  · exact ⟨_, rfl⟩

/-- C7, witness: the dry run of `-prefix a/ logs/` against the run with dry-run off. -/
theorem dry_run_skips_retrieval_witness :
    exDry.dryRun = true ∧
      (main exSvc exHumanize exDry 3 exSched).getCalls = [] ∧
      (main exSvc exHumanize exDry 3 exSched).stdout = [] ∧
      (main exSvc exHumanize exDry 3 exSched).emitted
        = (main exSvc exHumanize { exDry with dryRun := false } 3 exSched').emitted ∧
      (main exSvc exHumanize exDry 3 exSched).consumed
        = (main exSvc exHumanize { exDry with dryRun := false } 3 exSched').consumed ∧
      (main exSvc exHumanize exDry 3 exSched).stderr
        = (main exSvc exHumanize { exDry with dryRun := false } 3 exSched').stderr := by
  have h := dry_run_skips_retrieval exSvc exHumanize exDry 3 exSched exSched' rfl rfl
  obtain ⟨h1, h2, h3⟩ := h
  obtain ⟨g1, g2, -, g4, -⟩ := h3 (by decide) (by decide) (by decide) (by decide)
  exact ⟨rfl, h1, h2, g1, g2, g4⟩

/-- C8, witness: `-version` without a bucket. -/
theorem version_flag_prints_version_witness :
    exVersion.showVersion = true ∧ exVersion.bucket = "" ∧
      (main exSvc exHumanize exVersion 3 exSched).stdout = bytes "cats3 0.0.1\n" ∧
      (main exSvc exHumanize exVersion 3 exSched).exit = some 0 ∧
      (main exSvc exHumanize exVersion 3 exSched).listCalls = [] ∧
      (main exSvc exHumanize exVersion 3 exSched).getCalls = [] ∧
      (main exSvc exHumanize exVersion 3 exSched).stderr = [] := by
  have h := version_flag_prints_version exSvc exHumanize exVersion 3 exSched rfl
  obtain ⟨h1, h2, h3, h4, -, h6⟩ := h
  exact ⟨rfl, rfl, h1, h2, h3, h4, h6⟩

/-- C9, witness: `cats3 a.txt` without a bucket. -/
theorem missing_bucket_is_fatal_witness :
    exNoBucket.showVersion = false ∧ exNoBucket.bucket = "" ∧
      (main exSvc exHumanize exNoBucket 3 exSched).exit = some 1 ∧
      (main exSvc exHumanize exNoBucket 3 exSched).stderr
        = [.error "bucket name required"] ∧
      (main exSvc exHumanize exNoBucket 3 exSched).getCalls = [] ∧
      (main exSvc exHumanize exNoBucket 3 exSched).stdout = [] := by
  have h := missing_bucket_is_fatal exSvc exHumanize exNoBucket 3 exSched rfl rfl
  obtain ⟨h1, h2, -, h4, -, h6⟩ := h
  exact ⟨rfl, rfl, h1, h2, h4, h6⟩

end Cats3
